import Mathlib

/-!
Verification of the columnar CRDT op-store core: the LEB128/value-metadata
codec (`op_set2/meta.rs`, `op_set2/types.rs`), the found-ops grouping
iterator (`op_set2/op_set/found_op.rs`), and the per-node visibility
`Index` (`query.rs`), embedded shallowly in Lean.

Machine integers are modelled as `Nat`/`Int`; byte strings as `List Nat`
(each element a `u8` value); `f64` values by their IEEE-754 bit pattern
(a `Nat` below `2^64`), since the code only moves them through
`to_le_bytes`/`from_le_bytes` and compares them with `PartialEq`.
-/

namespace Automerge

/-! ## LEB128 codec and `PackError`

The `packer` module is not among the provided sources; the codec layer is
modelled from the spec (section 4.1 and the LEB128 length law in
section 8). -/

/-- `PackError` from the spec's decoder error surface (section 6):
`Leb`, `InvalidValue(expected, actual)`, `ActorIndexOutOfRange`. -/
inductive PackError where
  | Leb : PackError
  | invalidValue (expected : String) (actual : String) : PackError
  | ActorIndexOutOfRange (idx : Nat) (limit : Nat) : PackError
  deriving DecidableEq, Repr

/-- Modelled from the spec: one step of unsigned LEB128 encoding
(glossary "LEB128"; `packer` is not in the provided sources). The first
argument is structural fuel; `fuel > n` always suffices because the
value shrinks by a factor of 128 every step. -/
def ulebAux : Nat → Nat → List Nat
  | 0, _ => []
  | fuel + 1, n => if n < 128 then [n] else (n % 128 + 128) :: ulebAux fuel (n / 128)

/-- Modelled from the spec: unsigned LEB128 encoding of a `u64`. -/
def encodeUleb (n : Nat) : List Nat := ulebAux (n + 1) n

/-- Modelled from the spec: `u64::unpack` reads an unsigned LEB128 from
the front of the buffer, returning `(consumed, value)`, and fails with
`PackError::Leb` on malformed input (spec section 4.1). -/
def decodeUleb : List Nat → Except PackError (Nat × Nat)
  | [] => .error .Leb
  | b :: rest =>
    if b < 128 then .ok (1, b)
    else
      match decodeUleb rest with
      | .ok (len, v) => .ok (len + 1, (b - 128) + v * 128)
      | .error e => .error e

theorem ulebAux_round (fuel n : Nat) (h : n < fuel) :
    decodeUleb (ulebAux fuel n) = .ok ((ulebAux fuel n).length, n) := by
  induction fuel generalizing n with
  | zero => omega
  | succ fuel ih =>
    by_cases hn : n < 128
    · simp [ulebAux, decodeUleb, hn]
    · have hdiv : n / 128 < fuel := by omega
      have hrec := ih (n / 128) hdiv
      simp only [ulebAux, if_neg hn, decodeUleb]
      have hb : ¬ (n % 128 + 128 < 128) := by omega
      simp only [if_neg hb, hrec, List.length_cons]
      congr 1
      ext
      · rfl
      · show n % 128 + 128 - 128 + n / 128 * 128 = n
        omega

/-- Unsigned LEB128 round-trip: decoding the encoding of `n` consumes the
whole encoding and returns `n`. -/
theorem decodeUleb_encodeUleb (n : Nat) :
    decodeUleb (encodeUleb n) = .ok ((encodeUleb n).length, n) :=
  ulebAux_round (n + 1) n (Nat.lt_succ_self n)

/-! ## `Action` (`op_set2/types.rs`, lines 62-73, 105-118, 594-613) -/

/-- The `Action` enum, in source declaration order. -/
inductive Action where
  | MakeMap
  | MakeList
  | MakeText
  | Set
  | Delete
  | Increment
  | MakeTable
  | Mark
  deriving DecidableEq, Repr

/-- `impl From<Action> for u64` (`op_set2/types.rs` lines 105-118). -/
def u64OfAction : Action → Nat
  | .MakeMap => 0
  | .Set => 1
  | .MakeList => 2
  | .Delete => 3
  | .MakeText => 4
  | .Increment => 5
  | .MakeTable => 6
  | .Mark => 7

/-- `Action::unpack` (`op_set2/types.rs` lines 594-613): read a `u64`
(unsigned LEB128) and map the integers 0..=7 to actions; any other value
is `PackError::InvalidValue`. -/
def Action.unpack (buff : List Nat) : Except PackError (Nat × Action) :=
  match decodeUleb buff with
  | .error e => .error e
  | .ok (len, result) =>
    match result with
    | 0 => .ok (len, .MakeMap)
    | 1 => .ok (len, .Set)
    | 2 => .ok (len, .MakeList)
    | 3 => .ok (len, .Delete)
    | 4 => .ok (len, .MakeText)
    | 5 => .ok (len, .Increment)
    | 6 => .ok (len, .MakeTable)
    | 7 => .ok (len, .Mark)
    | other =>
      .error (.invalidValue "valid action (integer between 0 and 7)"
        ("unexpected integer: " ++ toString other))

/-- C8: `Action::unpack` inverts `u64::from` on every action, and rejects
every integer above 7 with `PackError::InvalidValue`. -/
theorem action_code_bijection :
    (∀ a : Action, Action.unpack (encodeUleb (u64OfAction a)) = .ok (1, a)) ∧
    (∀ n : Nat, 7 < n → n < 2 ^ 64 →
      Action.unpack (encodeUleb n) =
        .error (.invalidValue "valid action (integer between 0 and 7)"
          ("unexpected integer: " ++ toString n))) := by
  constructor
  · intro a
    cases a <;> rfl
  · intro n h7 _
    obtain ⟨m, rfl⟩ : ∃ m, n = m + 8 := ⟨n - 8, by omega⟩
    simp [Action.unpack, decodeUleb_encodeUleb]

/-- Witness for C8 at concrete inputs. -/
theorem action_code_bijection_witness :
    Action.unpack (encodeUleb (u64OfAction .Mark)) = .ok (1, .Mark) ∧
    Action.unpack (encodeUleb 200) =
      .error (.invalidValue "valid action (integer between 0 and 7)"
        ("unexpected integer: " ++ toString 200)) :=
  ⟨action_code_bijection.1 .Mark,
   action_code_bijection.2 200 (by decide) (by decide)⟩

/-! ## Signed LEB128 (`i64::unpack` / `leb128::write::signed`)

Also part of the `packer`/`leb128` layer, modelled from the spec
(section 4.1: "`i64::unpack` reads a signed LEB128 analogously"). -/

/-- Modelled from the spec: one step of signed LEB128 encoding. Each step
emits the low 7 bits and arithmetically shifts by 7 (`Int` `/`/`%` by a
positive constant are floor division and a nonnegative remainder, which
match the arithmetic shift). -/
def slebAux : Nat → Int → List Nat
  | 0, _ => []
  | fuel + 1, i =>
    let byte := (i % 128).toNat
    let rest := i / 128
    if (rest = 0 ∧ byte < 64) ∨ (rest = -1 ∧ 64 ≤ byte) then [byte]
    else (byte + 128) :: slebAux fuel rest

/-- Modelled from the spec: signed LEB128 encoding of an `i64`. -/
def encodeSleb (i : Int) : List Nat := slebAux (i.natAbs + 1) i

/-- Modelled from the spec: `i64::unpack` reads a signed LEB128,
returning `(consumed, value)`; the final byte is sign-extended. -/
def decodeSleb : List Nat → Except PackError (Nat × Int)
  | [] => .error .Leb
  | b :: rest =>
    if b < 128 then
      .ok (1, if 64 ≤ b then (b : Int) - 128 else (b : Int))
    else
      match decodeSleb rest with
      | .ok (len, v) => .ok (len + 1, ((b : Int) - 128) + v * 128)
      | .error e => .error e

theorem slebAux_round (fuel : Nat) (i : Int) (h : i.natAbs < fuel) :
    decodeSleb (slebAux fuel i) = .ok ((slebAux fuel i).length, i) := by
  induction fuel generalizing i with
  | zero => omega
  | succ fuel ih =>
    have hmod : 0 ≤ i % 128 ∧ i % 128 < 128 := ⟨Int.emod_nonneg i (by decide), Int.emod_lt_of_pos i (by decide)⟩
    have hid : 128 * (i / 128) + i % 128 = i := Int.ediv_add_emod i 128
    by_cases hstop : (i / 128 = 0 ∧ (i % 128).toNat < 64) ∨ (i / 128 = -1 ∧ 64 ≤ (i % 128).toNat)
    · simp only [slebAux, if_pos hstop, decodeSleb]
      rcases hstop with ⟨hq, hb⟩ | ⟨hq, hb⟩
      · have : ¬ (64 ≤ (i % 128).toNat) := by omega
        simp only [if_pos (show (i % 128).toNat < 128 by omega), if_neg this,
          List.length_singleton, Except.ok.injEq, Prod.mk.injEq]
        exact ⟨trivial, by omega⟩
      · simp only [if_pos (show (i % 128).toNat < 128 by omega), if_pos hb,
          List.length_singleton, Except.ok.injEq, Prod.mk.injEq]
        exact ⟨trivial, by omega⟩
    · have hrec : (i / 128).natAbs < fuel := by omega
      have := ih (i / 128) hrec
      simp only [slebAux, if_neg hstop, decodeSleb]
      have hb : ¬ ((i % 128).toNat + 128 < 128) := by omega
      simp only [if_neg hb, this, List.length_cons, Except.ok.injEq, Prod.mk.injEq]
      exact ⟨trivial, by omega⟩

/-- Signed LEB128 round-trip. -/
theorem decodeSleb_encodeSleb (i : Int) :
    decodeSleb (encodeSleb i) = .ok ((encodeSleb i).length, i) :=
  slebAux_round (i.natAbs + 1) i (Nat.lt_succ_self _)

/-- Modelled from the spec (section 8, LEB128 length law): `ulebsize x`
is the byte length of the unsigned LEB128 encoding of `x`. -/
def ulebsize (n : Nat) : Nat := (encodeUleb n).length

/-- Modelled from the spec (section 8, LEB128 length law): `lebsize x`
is the byte length of the signed LEB128 encoding of `x`. -/
def lebsize (i : Int) : Nat := (encodeSleb i).length

/-! ## `ScalarValue` and `ValueMeta` (`op_set2/types.rs`, `op_set2/meta.rs`)

`ScalarValue<'a>` is the borrowed scalar (`op_set2/types.rs` lines
182-194). Byte slices are `List Nat`; `&str` payloads are their UTF-8
bytes (validity is a Rust type invariant, captured by `ScalarValue.wf`);
`f64` is its IEEE-754 bit pattern. -/

inductive ScalarValue where
  | Bytes (b : List Nat)
  | Str (s : List Nat)
  | Int (i : Int)
  | Uint (u : Nat)
  | F64 (bits : Nat)
  | Counter (i : Int)
  | Timestamp (i : Int)
  | Boolean (b : Bool)
  | Unknown (type_code : Nat) (bytes : List Nat)
  | Null
  deriving DecidableEq, Repr

/-- `ValueType` (`op_set2/meta.rs` lines 4-17). -/
inductive ValueType where
  | Null
  | False
  | True
  | Uleb
  | Leb
  | Float
  | String
  | Bytes
  | Counter
  | Timestamp
  | Unknown (code : Nat)
  deriving DecidableEq, Repr

/-- A `ValueMeta` is a raw `u64` word (`op_set2/meta.rs` line 20). -/
abbrev ValueMeta := Nat

/-- `ValueMeta::type_code` (`op_set2/meta.rs` lines 23-38): the low four
bits (`(self.0 as u8) & 0b00001111`, i.e. `m % 16`). -/
def ValueMeta.type_code (m : ValueMeta) : ValueType :=
  match (m : Nat) % 16 with
  | 0 => .Null
  | 1 => .False
  | 2 => .True
  | 3 => .Uleb
  | 4 => .Leb
  | 5 => .Float
  | 6 => .String
  | 7 => .Bytes
  | 8 => .Counter
  | 9 => .Timestamp
  | other => .Unknown other

/-- `ValueMeta::length` (`op_set2/meta.rs` lines 40-42): `self.0 >> 4`. -/
def ValueMeta.length (m : ValueMeta) : Nat := (m : Nat) >>> 4

/-- `impl From<&ScalarValue> for ValueMeta` (`op_set2/meta.rs` lines
79-99). -/
def ValueMeta.fromScalar : ScalarValue → ValueMeta
  | .Uint i => (ulebsize i <<< 4) ||| 3
  | .Int i => (lebsize i <<< 4) ||| 4
  | .Null => 0
  | .Boolean false => 1
  | .Boolean true => 2
  | .Timestamp i => (lebsize i <<< 4) ||| 9
  | .F64 _ => (8 <<< 4) ||| 5
  | .Counter i => (lebsize i <<< 4) ||| 8
  | .Str s => (s.length <<< 4) ||| 6
  | .Bytes b => (b.length <<< 4) ||| 7
  | .Unknown type_code bytes => (bytes.length <<< 4) ||| type_code

/-- `ReadScalarError` (`op_set2/types.rs` lines 402-412). -/
inductive ReadScalarError where
  | Uleb
  | Leb
  | Float
  | Str
  deriving DecidableEq, Repr

/-- `parse_uleb128` (`op_set2/types.rs` lines 420-424): parse a prefix,
discard the consumed length, report failures as `ReadScalarError::Leb`. -/
def parse_uleb128 (input : List Nat) : Except ReadScalarError Nat :=
  match decodeUleb input with
  | .ok (_, v) => .ok v
  | .error _ => .error .Leb

/-- `parse_leb128` (`op_set2/types.rs` lines 426-430). -/
def parse_leb128 (input : List Nat) : Except ReadScalarError Int :=
  match decodeSleb input with
  | .ok (_, v) => .ok v
  | .error _ => .error .Leb

/-- Little-endian byte decomposition of an `f64` bit pattern
(`f64::to_le_bytes`). -/
def toLeBytes (n : Nat) : List Nat :=
  [n % 256, n / 256 % 256, n / 65536 % 256, n / 16777216 % 256,
   n / 4294967296 % 256, n / 1099511627776 % 256,
   n / 281474976710656 % 256, n / 72057594037927936 % 256]

/-- `f64::from_le_bytes` on an 8-byte list. -/
def fromLeBytes (l : List Nat) : Nat :=
  match l with
  | [b0, b1, b2, b3, b4, b5, b6, b7] =>
    b0 + b1 * 256 + b2 * 65536 + b3 * 16777216 + b4 * 4294967296 +
      b5 * 1099511627776 + b6 * 281474976710656 + b7 * 72057594037927936
  | _ => 0

/-- Continuation-byte test for UTF-8 validation. -/
def isCont (b : Nat) : Bool := 128 ≤ b && b ≤ 191

/-- UTF-8 validity of a byte sequence, as checked by
`std::str::from_utf8` (shortest-form encodings, no surrogates, max
U+10FFFF). -/
def utf8Valid : List Nat → Bool
  | [] => true
  | b :: rest =>
    if b ≤ 0x7F then utf8Valid rest
    else if 0xC2 ≤ b && b ≤ 0xDF then
      match rest with
      | c1 :: r => isCont c1 && utf8Valid r
      | [] => false
    else if b = 0xE0 then
      match rest with
      | c1 :: c2 :: r => (0xA0 ≤ c1 && c1 ≤ 0xBF) && isCont c2 && utf8Valid r
      | _ => false
    else if b = 0xED then
      match rest with
      | c1 :: c2 :: r => (0x80 ≤ c1 && c1 ≤ 0x9F) && isCont c2 && utf8Valid r
      | _ => false
    else if 0xE1 ≤ b && b ≤ 0xEF then
      match rest with
      | c1 :: c2 :: r => isCont c1 && isCont c2 && utf8Valid r
      | _ => false
    else if b = 0xF0 then
      match rest with
      | c1 :: c2 :: c3 :: r =>
        (0x90 ≤ c1 && c1 ≤ 0xBF) && isCont c2 && isCont c3 && utf8Valid r
      | _ => false
    else if 0xF1 ≤ b && b ≤ 0xF3 then
      match rest with
      | c1 :: c2 :: c3 :: r => isCont c1 && isCont c2 && isCont c3 && utf8Valid r
      | _ => false
    else if b = 0xF4 then
      match rest with
      | c1 :: c2 :: c3 :: r =>
        (0x80 ≤ c1 && c1 ≤ 0x8F) && isCont c2 && isCont c3 && utf8Valid r
      | _ => false
    else false

/-- `ScalarValue::from_raw` (`op_set2/types.rs` lines 281-307). -/
def ScalarValue.from_raw (meta : ValueMeta) (raw : List Nat) :
    Except ReadScalarError ScalarValue :=
  match meta.type_code with
  | .Null => .ok .Null
  | .False => .ok (.Boolean false)
  | .True => .ok (.Boolean true)
  | .Uleb => (parse_uleb128 raw).map .Uint
  | .Leb => (parse_leb128 raw).map .Int
  | .Float =>
    if raw.length = 8 then .ok (.F64 (fromLeBytes raw)) else .error .Float
  | .String => if utf8Valid raw then .ok (.Str raw) else .error .Str
  | .Bytes => .ok (.Bytes raw)
  | .Counter => (parse_leb128 raw).map .Counter
  | .Timestamp => (parse_leb128 raw).map .Timestamp
  | .Unknown u => .ok (.Unknown u raw)

/-- `ScalarValue::to_raw` (`op_set2/types.rs` lines 309-335). `None`
means no payload bytes. -/
def ScalarValue.to_raw : ScalarValue → Option (List Nat)
  | .Bytes b => some b
  | .Str s => some s
  | .Null => none
  | .Boolean _ => none
  | .Uint i => some (encodeUleb i)
  | .Int i => some (encodeSleb i)
  | .Counter i => some (encodeSleb i)
  | .Timestamp i => some (encodeSleb i)
  | .F64 f => some (toLeBytes f)
  | .Unknown _ bytes => some bytes

theorem metaPack_eq (L c : Nat) (h : c < 16) : (L <<< 4 ||| c) = 16 * L + c := by
  rw [Nat.shiftLeft_eq]
  have := (Nat.mul_add_lt_is_or (i := 4) h L).symm
  rw [Nat.mul_comm]
  omega

theorem metaPack_length (L c : Nat) (h : c < 16) :
    ValueMeta.length (L <<< 4 ||| c) = L := by
  rw [ValueMeta.length, metaPack_eq L c h, Nat.shiftRight_eq_div_pow]
  omega

theorem metaPack_mod (L c : Nat) (h : c < 16) : (L <<< 4 ||| c) % 16 = c := by
  rw [metaPack_eq L c h]
  omega

/-- `f64::is_nan` on a bit pattern: exponent all ones, mantissa
nonzero. -/
def f64IsNan (bits : Nat) : Bool :=
  decide (bits / 4503599627370496 % 2048 = 2047) && decide (bits % 4503599627370496 ≠ 0)

/-- IEEE zero test on a bit pattern (everything but the sign bit is 0). -/
def f64IsZero (bits : Nat) : Bool := decide (bits % 9223372036854775808 = 0)

/-- `f64`'s `PartialEq`: bitwise equality except that NaN compares
unequal to everything (itself included) and `+0.0 == -0.0`. -/
def f64Eq (a b : Nat) : Bool :=
  !f64IsNan a && !f64IsNan b && (decide (a = b) || (f64IsZero a && f64IsZero b))

/-- The derived `PartialEq` on `ScalarValue` (`op_set2/types.rs` line
182): structural equality on every variant, with `f64::eq` on `F64`. -/
def rustEq : ScalarValue → ScalarValue → Bool
  | .Bytes a, .Bytes b => decide (a = b)
  | .Str a, .Str b => decide (a = b)
  | .Int a, .Int b => decide (a = b)
  | .Uint a, .Uint b => decide (a = b)
  | .F64 a, .F64 b => f64Eq a b
  | .Counter a, .Counter b => decide (a = b)
  | .Timestamp a, .Timestamp b => decide (a = b)
  | .Boolean a, .Boolean b => decide (a = b)
  | .Unknown c1 b1, .Unknown c2 b2 => decide (c1 = c2) && decide (b1 = b2)
  | .Null, .Null => true
  | _, _ => false

/-- Rust type invariants of a `ScalarValue<'a>` value: payload bytes are
`u8`s, `&str` payloads are valid UTF-8, integers fit their Rust types,
`f64` bit patterns are 64-bit. -/
def ScalarValue.wf : ScalarValue → Bool
  | .Bytes b => b.all (· < 256)
  | .Str s => utf8Valid s
  | .Int i => decide (-(2 ^ 63) ≤ i) && decide (i < 2 ^ 63)
  | .Uint u => decide (u < 2 ^ 64)
  | .F64 bits => decide (bits < 2 ^ 64)
  | .Counter i => decide (-(2 ^ 63) ≤ i) && decide (i < 2 ^ 63)
  | .Timestamp i => decide (-(2 ^ 63) ≤ i) && decide (i < 2 ^ 63)
  | .Boolean _ => true
  | .Unknown c bs => decide (c < 256) && bs.all (· < 256)
  | .Null => true

/-- Whether an `Unknown` scalar carries a type code in the range
`10..=15`, the only codes decoding ever produces for `Unknown`
(`ValueMeta::type_code` maps the low nibble, and codes `0..=9` decode to
defined variants). -/
def ScalarValue.unknownCodeOk : ScalarValue → Bool
  | .Unknown c _ => decide (10 ≤ c) && decide (c ≤ 15)
  | _ => true

/-- Whether the scalar is a NaN float. -/
def ScalarValue.isNanF64 : ScalarValue → Bool
  | .F64 bits => f64IsNan bits
  | _ => false

/-- Rust `==` between a `Result<ScalarValue, _>` and a `ScalarValue`:
true iff the result is `Ok` of an `==`-equal value. -/
def okEq (r : Except ReadScalarError ScalarValue) (s : ScalarValue) : Bool :=
  match r with
  | .ok v => rustEq v s
  | .error _ => false

theorem fromLeBytes_toLeBytes (n : Nat) (h : n < 2 ^ 64) :
    fromLeBytes (toLeBytes n) = n := by
  simp only [toLeBytes, fromLeBytes]
  omega

theorem toLeBytes_length (n : Nat) : (toLeBytes n).length = 8 := rfl

/-- C4 (amended): for every well-formed `ScalarValue` whose `Unknown`
code (if any) is in the decode range `10..=15`, the meta length equals
the payload length, `from_raw` of `(meta, payload)` returns exactly the
original value, and the Rust `==` round-trip holds whenever the value is
not a NaN float. -/
theorem meta_round_trip_amended (s : ScalarValue) (hwf : s.wf = true)
    (hcode : s.unknownCodeOk = true) :
    ValueMeta.length (ValueMeta.fromScalar s) =
      ((s.to_raw).map List.length).getD 0 ∧
    ScalarValue.from_raw (ValueMeta.fromScalar s) ((s.to_raw).getD []) = .ok s ∧
    (s.isNanF64 = false →
      okEq (ScalarValue.from_raw (ValueMeta.fromScalar s) ((s.to_raw).getD [])) s
        = true) := by
  cases s with
  | Bytes b =>
    refine ⟨metaPack_length _ 7 (by omega), ?_, ?_⟩ <;>
      simp [ScalarValue.from_raw, ValueMeta.fromScalar, ValueMeta.type_code,
        metaPack_mod _ 7 (by omega), ScalarValue.to_raw, okEq, rustEq]
  | Str s =>
    have hu : utf8Valid s = true := hwf
    refine ⟨metaPack_length _ 6 (by omega), ?_, ?_⟩ <;>
      simp [ScalarValue.from_raw, ValueMeta.fromScalar, ValueMeta.type_code,
        metaPack_mod _ 6 (by omega), ScalarValue.to_raw, okEq, rustEq, hu]
  | Int i =>
    refine ⟨metaPack_length _ 4 (by omega), ?_, ?_⟩ <;>
      simp [ScalarValue.from_raw, ValueMeta.fromScalar, ValueMeta.type_code,
        metaPack_mod _ 4 (by omega), ScalarValue.to_raw, okEq, rustEq, lebsize,
        parse_leb128, decodeSleb_encodeSleb, Except.map]
  | Uint u =>
    refine ⟨metaPack_length _ 3 (by omega), ?_, ?_⟩ <;>
      simp [ScalarValue.from_raw, ValueMeta.fromScalar, ValueMeta.type_code,
        metaPack_mod _ 3 (by omega), ScalarValue.to_raw, okEq, rustEq, ulebsize,
        parse_uleb128, decodeUleb_encodeUleb, Except.map]
  | F64 bits =>
    have hb : bits < 2 ^ 64 := by simpa [ScalarValue.wf] using hwf
    have hfl := fromLeBytes_toLeBytes bits hb
    refine ⟨metaPack_length 8 5 (by omega), ?_, ?_⟩
    · simp [ScalarValue.from_raw, ValueMeta.fromScalar, ValueMeta.type_code,
        metaPack_mod 8 5 (by omega), ScalarValue.to_raw, toLeBytes_length, hfl]
    · intro hnan
      simp only [ScalarValue.isNanF64] at hnan
      simp [ScalarValue.from_raw, ValueMeta.fromScalar, ValueMeta.type_code,
        metaPack_mod 8 5 (by omega), ScalarValue.to_raw, toLeBytes_length, hfl,
        okEq, rustEq, f64Eq, hnan]
  | Counter i =>
    refine ⟨metaPack_length _ 8 (by omega), ?_, ?_⟩ <;>
      simp [ScalarValue.from_raw, ValueMeta.fromScalar, ValueMeta.type_code,
        metaPack_mod _ 8 (by omega), ScalarValue.to_raw, okEq, rustEq, lebsize,
        parse_leb128, decodeSleb_encodeSleb, Except.map]
  | Timestamp i =>
    refine ⟨metaPack_length _ 9 (by omega), ?_, ?_⟩ <;>
      simp [ScalarValue.from_raw, ValueMeta.fromScalar, ValueMeta.type_code,
        metaPack_mod _ 9 (by omega), ScalarValue.to_raw, okEq, rustEq, lebsize,
        parse_leb128, decodeSleb_encodeSleb, Except.map]
  | Boolean b =>
    cases b <;> exact ⟨rfl, rfl, fun _ => rfl⟩
  | Unknown c bs =>
    have hc : 10 ≤ c ∧ c ≤ 15 := by
      simpa [ScalarValue.unknownCodeOk, Bool.and_eq_true] using hcode
    obtain ⟨h10, h15⟩ := hc
    have hmod := metaPack_mod bs.length c (by omega)
    refine ⟨metaPack_length _ c (by omega), ?_, ?_⟩ <;>
      · interval_cases c <;>
          simp [ScalarValue.from_raw, ValueMeta.fromScalar, ValueMeta.type_code,
            hmod, ScalarValue.to_raw, okEq, rustEq]
  | Null =>
    exact ⟨rfl, rfl, fun _ => rfl⟩

/-- Witness for C4 (amended) at concrete inputs. -/
theorem meta_round_trip_amended_witness :
    (ScalarValue.Int (-300)).wf = true ∧
    ValueMeta.length (ValueMeta.fromScalar (.Int (-300))) =
      (((ScalarValue.Int (-300)).to_raw).map List.length).getD 0 ∧
    ScalarValue.from_raw (ValueMeta.fromScalar (.Int (-300)))
      (((ScalarValue.Int (-300)).to_raw).getD []) = .ok (.Int (-300)) :=
  ⟨by decide, (meta_round_trip_amended (.Int (-300)) (by decide) (by decide)).1,
   (meta_round_trip_amended (.Int (-300)) (by decide) (by decide)).2.1⟩

/-- C4 counterexample: for the NaN float (bit pattern
`0x7FF8000000000000`, a well-formed `ScalarValue`), decoding the encoded
payload back does not compare `==`-equal to the original value, because
`f64`'s `PartialEq` makes NaN unequal to itself. -/
theorem meta_round_trip_cex :
    (ScalarValue.F64 9221120237041090560).wf = true ∧
    okEq
      (ScalarValue.from_raw (ValueMeta.fromScalar (.F64 9221120237041090560))
        (((ScalarValue.F64 9221120237041090560).to_raw).getD []))
      (.F64 9221120237041090560) = false := by
  constructor <;> decide

/-! ## `OpType::from_action_and_value` (`op_set2/types.rs` lines 133-180) -/

/-- `ObjType` from `crate::types`; modelled from the spec (the four
`Make*` actions of section 3). -/
inductive ObjType where
  | Map
  | List
  | Text
  | Table
  deriving DecidableEq, Repr

/-- `MarkData<'a>` (`op_set2/types.rs` lines 47-51); the `&str` name is
its UTF-8 bytes. -/
structure MarkDataB where
  name : List Nat
  value : ScalarValue
  deriving DecidableEq, Repr

/-- `OpType<'a>` (`op_set2/types.rs` lines 133-141). -/
inductive OpTypeB where
  | Make (t : ObjType)
  | Delete
  | Increment (i : Int)
  | Put (v : ScalarValue)
  | MarkBegin (expand : Bool) (data : MarkDataB)
  | MarkEnd (expand : Bool)
  deriving DecidableEq, Repr

/-- Rust's `u as i64` on a `u64` value: two's-complement wrap. -/
def u64AsI64 (u : Nat) : Int :=
  if u < 2 ^ 63 then (u : Int) else (u : Int) - 2 ^ 64

/-- `OpType::from_action_and_value` (`op_set2/types.rs` lines 155-179).
`none` models the `unreachable!` panic on a non-numeric `Increment`
value. -/
def OpTypeB.from_action_and_value (action : Action) (value : ScalarValue)
    (mark_name : Option (List Nat)) (expand : Bool) : Option OpTypeB :=
  match action with
  | .MakeMap => some (.Make .Map)
  | .MakeList => some (.Make .List)
  | .MakeText => some (.Make .Text)
  | .MakeTable => some (.Make .Table)
  | .Set => some (.Put value)
  | .Delete => some .Delete
  | .Increment =>
    match value with
    | .Int i => some (.Increment i)
    | .Uint i => some (.Increment (u64AsI64 i))
    | _ => none
  | .Mark =>
    match mark_name with
    | some name => some (.MarkBegin expand ⟨name, value⟩)
    | none => some (.MarkEnd expand)

/-- The numeric scalars accepted by the `Increment` branch (the set
`validate_action_and_value` lets through: `Int` and `Uint`). -/
def ScalarValue.isNumeric : ScalarValue → Bool
  | .Int _ => true
  | .Uint _ => true
  | _ => false

/-- The `i64` an accepted numeric scalar carries into `Increment`
(`i` for `Int(i)`, `i as i64` for `Uint(i)`). -/
def ScalarValue.numericAsI64 : ScalarValue → ℤ
  | .Int i => i
  | .Uint i => u64AsI64 i
  | _ => 0

/-- C9: on `Action::Increment` with a numeric scalar,
`from_action_and_value` returns `Increment` of the value as an `i64`,
and in particular the `unreachable!` branch is not taken. -/
theorem increment_numeric (v : ScalarValue) (mark_name : Option (List Nat))
    (expand : Bool) (h : v.isNumeric = true) :
    OpTypeB.from_action_and_value .Increment v mark_name expand =
      some (.Increment v.numericAsI64) := by
  cases v <;> simp_all [ScalarValue.isNumeric, OpTypeB.from_action_and_value,
    ScalarValue.numericAsI64]

/-- Witness for C9 at concrete inputs (`Int(-2)` and a wrapping
`Uint`). -/
theorem increment_numeric_witness :
    (ScalarValue.Int (-2)).isNumeric = true ∧
    OpTypeB.from_action_and_value .Increment (.Int (-2)) none false =
      some (.Increment (-2)) ∧
    OpTypeB.from_action_and_value .Increment (.Uint (2 ^ 64 - 1)) none false =
      some (.Increment (-1)) :=
  ⟨by decide,
   increment_numeric (.Int (-2)) none false (by decide),
   by
    have h := increment_numeric (.Uint (2 ^ 64 - 1)) none false (by decide)
    simpa [ScalarValue.numericAsI64, u64AsI64] using h⟩

/-! ## Found-ops grouping (`op_set2/op_set/found_op.rs`)

`OpsFoundIter` wraps an op iterator. The `Op<'a>` view and `OpsFound`
carrier live in `op_set2/op` / `op_set2/op_set`, which are not among the
provided sources; they are modelled from the spec (sections 3, 4.4,
4.5). For grouping, an op contributes its column position `pos`, its
`action`, its `elemid_or_key()` and the boolean outcome of
`scope_to_clock` against the iterator's fixed optional clock; the last
two are modelled as op attributes. -/

/-- `KeyRef<'a>` (`op_set2/types.rs` lines 503-507): a map key (UTF-8
bytes of the `&str`) or a sequence `ElemId` (actor, counter — spec
glossary). -/
inductive KeyRef where
  | Map (s : List Nat)
  | Seq (actor : Nat) (counter : Nat)
  deriving DecidableEq, Repr

/-- Modelled from the spec (section 3 "Op", section 4.5): the fields of
the borrowed op view that found-ops grouping reads: `pos`, `action`,
`elemid_or_key()`, and the result of `scope_to_clock` at the iterator's
clock. -/
structure Op2 where
  pos : Nat
  action : Action
  key : KeyRef
  inScope : Bool
  deriving DecidableEq, Repr

/-- Modelled from the spec (section 4.5): `OpsFound { ops_pos, ops,
end_pos }`; `OpsFound::default()` is all-empty. -/
structure OpsFound where
  ops_pos : List Nat
  ops : List Op2
  end_pos : Nat
  deriving DecidableEq, Repr

/-- The loop-body update applied to the pending group for each
non-`Increment` op (`found_op.rs` lines 41-48): always advance
`end_pos`, and push the op when it is in scope. -/
def updateF (f : OpsFound) (op : Op2) : OpsFound :=
  let f := { f with end_pos := op.pos + 1 }
  if op.inScope then
    { f with ops_pos := f.ops_pos ++ [op.pos], ops := f.ops ++ [op] }
  else f

/-- One call of `OpsFoundIter::next` (`found_op.rs` lines 29-55) on the
state `(remaining ops, last_key, found)`: returns the yielded item (if
any) and the successor state. A stale empty `result` kept across loop
iterations in the Rust code can never be yielded and is overwritten at
the next key change, so continuing without it is observationally the
same. -/
def ofiNext : List Op2 → Option KeyRef → Option OpsFound →
    Option OpsFound × (List Op2 × Option KeyRef × Option OpsFound)
  | [], lastKey, found => (found, ([], lastKey, none))
  | op :: rest, lastKey, found =>
    if op.action = .Increment then ofiNext rest lastKey found
    else
      let result := if some op.key = lastKey then none else found
      let lastKey' := if some op.key = lastKey then lastKey else some op.key
      let found' :=
        if some op.key = lastKey then found else some (⟨[], [], 0⟩ : OpsFound)
      let found'' := found'.map (fun f => updateF f op)
      match result with
      | some f =>
        if f.ops.isEmpty then ofiNext rest lastKey' found''
        else (some f, (rest, lastKey', found''))
      | none => ofiNext rest lastKey' found''

/-- Driving `OpsFoundIter` to exhaustion, collecting every yielded
`OpsFound`. The fuel argument only bounds the number of `next` calls;
`ops.length + 2` always suffices (each yield after the first call
consumes at least one op). -/
def ofiRun : Nat → List Op2 → Option KeyRef → Option OpsFound → List OpsFound
  | 0, _, _, _ => []
  | fuel + 1, ops, lastKey, found =>
    match ofiNext ops lastKey found with
    | (none, _) => []
    | (some g, (rest, lk, fd)) => g :: ofiRun fuel rest lk fd

/-- All groups emitted by `OpsFoundIter::new(ops, clock)`. -/
def ofiAll (ops : List Op2) : List OpsFound := ofiRun (ops.length + 2) ops none none

/-- The input stream with `Increment` ops dropped (grouping skips
them). -/
def nonInc (ops : List Op2) : List Op2 :=
  ops.filter (fun o => decide (o.action ≠ Action.Increment))

/-- The group the spec associates to one maximal key-run: the scoped ops
(and their positions) in order, and `end_pos` one past the last op of
the run, scoped or not. -/
def refGroup (run : List Op2) : OpsFound :=
  { ops_pos := (run.filter (fun o => o.inScope)).map Op2.pos,
    ops := run.filter (fun o => o.inScope),
    end_pos :=
      match run.getLast? with
      | some l => l.pos + 1
      | none => 0 }

/-- Attach a new head run to a run partition: it merges into the first
run when that run continues key `k`, and otherwise stands alone. -/
def mergeFirst (run₀ : List Op2) (rs : List (List Op2)) (k : KeyRef) :
    List (List Op2) :=
  match rs with
  | (x :: xs) :: rs' =>
    if x.key = k then (run₀ ++ x :: xs) :: rs' else run₀ :: (x :: xs) :: rs'
  | _ => run₀ :: rs

/-- Maximal runs of consecutive equal-`elemid_or_key` ops. -/
def keyRuns : List Op2 → List (List Op2)
  | [] => []
  | op :: rest => mergeFirst [op] (keyRuns rest) op.key

/-- Yield a completed mid-stream group only when it is non-empty. -/
def emitOne (g : OpsFound) : List OpsFound := if g.ops.isEmpty then [] else [g]

/-- The groups the iterator emits for a run partition: mid-stream runs
are suppressed when their scoped part is empty; the final buffered run
is emitted unconditionally. -/
def emitRuns : List (List Op2) → List OpsFound
  | [] => []
  | [r] => [refGroup r]
  | r :: rs => emitOne (refGroup r) ++ emitRuns rs

/-- The unrolled iterator loop: the same recursion with the pending
group made explicit, used as a bridge between `ofiRun` and the run-based
reference. -/
def emitFrom : List Op2 → Option (KeyRef × OpsFound) → List OpsFound
  | [], none => []
  | [], some (_, f) => [f]
  | op :: rest, cur =>
    if op.action = .Increment then emitFrom rest cur
    else
      match cur with
      | none => emitFrom rest (some (op.key, updateF ⟨[], [], 0⟩ op))
      | some (k, f) =>
        if op.key = k then emitFrom rest (some (k, updateF f op))
        else if f.ops.isEmpty then
          emitFrom rest (some (op.key, updateF ⟨[], [], 0⟩ op))
        else f :: emitFrom rest (some (op.key, updateF ⟨[], [], 0⟩ op))

/-- Fold the loop update over a whole run. -/
def flushF (f : OpsFound) (run : List Op2) : OpsFound := run.foldl updateF f

theorem updateF_eq (f : OpsFound) (op : Op2) :
    updateF f op =
      { ops_pos := f.ops_pos ++ if op.inScope then [op.pos] else [],
        ops := f.ops ++ if op.inScope then [op] else [],
        end_pos := op.pos + 1 } := by
  cases h : op.inScope <;> simp [updateF, h]

theorem flushF_spec (run : List Op2) : ∀ f : OpsFound,
    flushF f run =
      { ops_pos := f.ops_pos ++ (run.filter (fun o => o.inScope)).map Op2.pos,
        ops := f.ops ++ run.filter (fun o => o.inScope),
        end_pos :=
          match run.getLast? with
          | some l => l.pos + 1
          | none => f.end_pos } := by
  induction run with
  | nil => intro f; simp [flushF]
  | cons op rest ih =>
    intro f
    have step : flushF f (op :: rest) = flushF (updateF f op) rest := rfl
    rw [step, ih (updateF f op), updateF_eq]
    cases hrest : rest with
    | nil => cases h : op.inScope <;> simp [List.filter, h]
    | cons b l =>
      obtain ⟨x, hx⟩ : ∃ x, (b :: l).getLast? = some x :=
        Option.isSome_iff_exists.mp (List.getLast?_isSome.mpr (by simp))
      cases h : op.inScope <;>
        simp [List.filter, h, List.getLast?_cons_cons, hx]

theorem flushF_refGroup (run : List Op2) : flushF ⟨[], [], 0⟩ run = refGroup run := by
  rw [flushF_spec]
  simp only [refGroup, List.nil_append]

theorem flushF_concat (f : OpsFound) (run : List Op2) (op : Op2) :
    flushF f (run ++ [op]) = updateF (flushF f run) op := by
  simp [flushF, List.foldl_append]

/-- `keyRuns` of a cons is `mergeFirst` of a singleton run, and the
resulting first run starts with the new op. -/
theorem keyRuns_cons_shape (op : Op2) (rest : List Op2) :
    ∃ t rs', keyRuns (op :: rest) = (op :: t) :: rs' := by
  show ∃ t rs', mergeFirst [op] (keyRuns rest) op.key = (op :: t) :: rs'
  match h : keyRuns rest with
  | [] => exact ⟨[], [], rfl⟩
  | [] :: rs' => exact ⟨[], [] :: rs', rfl⟩
  | (x :: xs) :: rs' =>
    by_cases hx : x.key = op.key
    · exact ⟨x :: xs, rs', by simp [mergeFirst, hx]⟩
    · exact ⟨[], (x :: xs) :: rs', by simp [mergeFirst, hx]⟩

theorem mergeFirst_absorb (run₀ : List Op2) (op : Op2) (k : KeyRef)
    (hk : op.key = k) (rs : List (List Op2)) :
    mergeFirst run₀ (mergeFirst [op] rs op.key) k = mergeFirst (run₀ ++ [op]) rs k := by
  match rs with
  | [] => simp [mergeFirst, hk]
  | [] :: rs' => simp [mergeFirst, hk]
  | (x :: xs) :: rs' =>
    by_cases hx : x.key = op.key
    · simp [mergeFirst, hx, hk, hx.trans hk]
    · have hx' : ¬ x.key = k := fun h => hx (h.trans hk.symm)
      simp [mergeFirst, hx, hk, hx']

/-- The central bridge: the unrolled loop starting in the middle of a
run (already holding the folded prefix `run₀` of the current key-`k`
run) emits exactly the reference groups of the completed partition. -/
theorem emitFrom_eq (ops : List Op2) : ∀ (k : KeyRef) (run₀ : List Op2),
    (∀ o ∈ ops, o.action ≠ Action.Increment) →
    emitFrom ops (some (k, flushF ⟨[], [], 0⟩ run₀)) =
      emitRuns (mergeFirst run₀ (keyRuns ops) k) := by
  induction ops with
  | nil =>
    intro k run₀ _
    show [flushF ⟨[], [], 0⟩ run₀] = emitRuns (mergeFirst run₀ [] k)
    rw [flushF_refGroup]
    rfl
  | cons op rest ih =>
    intro k run₀ hni
    have hop : op.action ≠ Action.Increment := hni op (List.mem_cons_self op rest)
    have hrest : ∀ o ∈ rest, o.action ≠ Action.Increment :=
      fun o ho => hni o (List.mem_cons_of_mem op ho)
    by_cases hk : op.key = k
    · have lhs :
          emitFrom (op :: rest) (some (k, flushF ⟨[], [], 0⟩ run₀)) =
            emitFrom rest (some (k, flushF ⟨[], [], 0⟩ (run₀ ++ [op]))) := by
        rw [flushF_concat]
        simp [emitFrom, hop, hk]
      rw [lhs, ih k (run₀ ++ [op]) hrest]
      show emitRuns (mergeFirst (run₀ ++ [op]) (keyRuns rest) k) =
        emitRuns (mergeFirst run₀ (mergeFirst [op] (keyRuns rest) op.key) k)
      rw [mergeFirst_absorb run₀ op k hk]
    · obtain ⟨t, rs', hshape⟩ := keyRuns_cons_shape op rest
      have hfirst :
          mergeFirst run₀ (keyRuns (op :: rest)) k = run₀ :: keyRuns (op :: rest) := by
        rw [hshape]
        simp [mergeFirst, hk]
      have hnew : updateF ⟨[], [], 0⟩ op = flushF ⟨[], [], 0⟩ [op] := rfl
      have htail :
          emitFrom rest (some (op.key, updateF ⟨[], [], 0⟩ op)) =
            emitRuns (keyRuns (op :: rest)) := by
        rw [hnew, ih op.key [op] hrest]
        rfl
      by_cases hemp : (flushF ⟨[], [], 0⟩ run₀).ops.isEmpty
      · have lhs :
            emitFrom (op :: rest) (some (k, flushF ⟨[], [], 0⟩ run₀)) =
              emitFrom rest (some (op.key, updateF ⟨[], [], 0⟩ op)) := by
          simp [emitFrom, hop, hk, hemp]
        rw [lhs, htail, hfirst]
        rw [hshape]
        show emitRuns ((op :: t) :: rs') = emitRuns (run₀ :: (op :: t) :: rs')
        have : emitRuns (run₀ :: (op :: t) :: rs') =
            emitOne (refGroup run₀) ++ emitRuns ((op :: t) :: rs') := rfl
        rw [this, ← flushF_refGroup, emitOne]
        simp [hemp]
      · have lhs :
            emitFrom (op :: rest) (some (k, flushF ⟨[], [], 0⟩ run₀)) =
              flushF ⟨[], [], 0⟩ run₀ ::
                emitFrom rest (some (op.key, updateF ⟨[], [], 0⟩ op)) := by
          simp [emitFrom, hop, hk, hemp]
        rw [lhs, htail, hfirst, hshape]
        show flushF ⟨[], [], 0⟩ run₀ :: emitRuns ((op :: t) :: rs') =
          emitRuns (run₀ :: (op :: t) :: rs')
        have : emitRuns (run₀ :: (op :: t) :: rs') =
            emitOne (refGroup run₀) ++ emitRuns ((op :: t) :: rs') := rfl
        rw [this, ← flushF_refGroup, emitOne]
        simp [hemp]

/-- Run-based characterisation of the unrolled loop from the initial
state, on an increment-free stream. -/
theorem emitFrom_none (ops : List Op2)
    (hni : ∀ o ∈ ops, o.action ≠ Action.Increment) :
    emitFrom ops none = emitRuns (keyRuns ops) := by
  cases ops with
  | nil => rfl
  | cons op rest =>
    have hop : op.action ≠ Action.Increment := hni op (List.mem_cons_self op rest)
    have hrest : ∀ o ∈ rest, o.action ≠ Action.Increment :=
      fun o ho => hni o (List.mem_cons_of_mem op ho)
    have lhs : emitFrom (op :: rest) none =
        emitFrom rest (some (op.key, updateF ⟨[], [], 0⟩ op)) := by
      simp [emitFrom, hop]
    rw [lhs, show updateF ⟨[], [], 0⟩ op = flushF ⟨[], [], 0⟩ [op] from rfl,
      emitFrom_eq rest op.key [op] hrest]
    rfl

/-- Dropping increments does not change the unrolled loop. -/
theorem emitFrom_nonInc (ops : List Op2) : ∀ cur,
    emitFrom ops cur = emitFrom (nonInc ops) cur := by
  induction ops with
  | nil => intro cur; rfl
  | cons op rest ih =>
    intro cur
    by_cases hop : op.action = Action.Increment
    · have : nonInc (op :: rest) = nonInc rest := by
        simp [nonInc, List.filter, hop]
      rw [this, ← ih cur]
      cases cur with
      | none => simp [emitFrom, hop]
      | some kf => simp [emitFrom, hop]
    · have hstep : nonInc (op :: rest) = op :: nonInc rest := by
        simp [nonInc, List.filter, hop]
      rw [hstep]
      cases cur with
      | none => simp [emitFrom, hop, ih]
      | some kf =>
        obtain ⟨k, f⟩ := kf
        by_cases hk : op.key = k <;> by_cases hemp : f.ops.isEmpty <;>
          simp [emitFrom, hop, hk, hemp, ih]

theorem ofiRun_succ (fuel : Nat) (ops : List Op2) (lk : Option KeyRef)
    (fd : Option OpsFound) :
    ofiRun (fuel + 1) ops lk fd =
      match ofiNext ops lk fd with
      | (none, _) => []
      | (some g, (rest, lk', fd')) => g :: ofiRun fuel rest lk' fd' := rfl

theorem ofiNext_inc (op : Op2) (rest : List Op2) (lk : Option KeyRef)
    (fd : Option OpsFound) (h : op.action = Action.Increment) :
    ofiNext (op :: rest) lk fd = ofiNext rest lk fd := by
  simp [ofiNext, h]

theorem ofiNext_same (op : Op2) (rest : List Op2) (k : KeyRef) (f : OpsFound)
    (h : op.action ≠ Action.Increment) (hk : op.key = k) :
    ofiNext (op :: rest) (some k) (some f) =
      ofiNext rest (some k) (some (updateF f op)) := by
  simp [ofiNext, h, hk]

theorem ofiNext_diff (op : Op2) (rest : List Op2) (k : KeyRef) (f : OpsFound)
    (h : op.action ≠ Action.Increment) (hk : ¬ op.key = k) :
    ofiNext (op :: rest) (some k) (some f) =
      if f.ops.isEmpty then
        ofiNext rest (some op.key) (some (updateF ⟨[], [], 0⟩ op))
      else
        (some f, (rest, some op.key, some (updateF ⟨[], [], 0⟩ op))) := by
  simp only [ofiNext, if_neg h]
  have : ¬ (some op.key = some k) := by simpa using hk
  simp [this]

theorem ofiNext_start (op : Op2) (rest : List Op2)
    (h : op.action ≠ Action.Increment) :
    ofiNext (op :: rest) none none =
      ofiNext rest (some op.key) (some (updateF ⟨[], [], 0⟩ op)) := by
  simp [ofiNext, h]

/-- Driving the iterator from the middle of a run agrees with the
unrolled loop, given enough fuel. -/
theorem ofiRun_emitFrom_some (ops : List Op2) : ∀ (fuel : Nat) (k : KeyRef)
    (f : OpsFound), ops.length + 2 ≤ fuel →
    ofiRun fuel ops (some k) (some f) = emitFrom ops (some (k, f)) := by
  induction ops with
  | nil =>
    intro fuel k f hfuel
    obtain ⟨m, rfl⟩ : ∃ m, fuel = m + 2 := ⟨fuel - 2, by omega⟩
    show ofiRun (m + 1 + 1) [] (some k) (some f) = [f]
    rw [ofiRun_succ]
    show f :: ofiRun (m + 1) [] (some k) none = [f]
    rw [ofiRun_succ]
    rfl
  | cons op rest ih =>
    intro fuel k f hfuel
    obtain ⟨m, rfl⟩ : ∃ m, fuel = m + 1 := ⟨fuel - 1, by omega⟩
    have hlen0 : rest.length + 3 ≤ m + 1 := by
      simpa [List.length_cons] using hfuel
    have hlen : rest.length + 2 ≤ m + 1 := by omega
    by_cases hop : op.action = Action.Increment
    · rw [ofiRun_succ, ofiNext_inc op rest _ _ hop, ← ofiRun_succ,
        ih (m + 1) k f hlen]
      simp [emitFrom, hop]
    · by_cases hk : op.key = k
      · rw [ofiRun_succ, ofiNext_same op rest k f hop hk, ← ofiRun_succ,
          ih (m + 1) k (updateF f op) hlen]
        simp [emitFrom, hop, hk]
      · by_cases hemp : f.ops.isEmpty
        · rw [ofiRun_succ, ofiNext_diff op rest k f hop hk, if_pos hemp,
            ← ofiRun_succ, ih (m + 1) op.key (updateF ⟨[], [], 0⟩ op) hlen]
          simp [emitFrom, hop, hk, hemp]
        · rw [ofiRun_succ, ofiNext_diff op rest k f hop hk, if_neg hemp]
          show f :: ofiRun m rest (some op.key) (some (updateF ⟨[], [], 0⟩ op)) =
            emitFrom (op :: rest) (some (k, f))
          rw [ih m op.key (updateF ⟨[], [], 0⟩ op) (by omega)]
          simp [emitFrom, hop, hk, hemp]

/-- Driving the iterator from the initial state agrees with the unrolled
loop, given enough fuel. -/
theorem ofiRun_emitFrom_none (ops : List Op2) : ∀ fuel : Nat,
    ops.length + 2 ≤ fuel → ofiRun fuel ops none none = emitFrom ops none := by
  induction ops with
  | nil =>
    intro fuel hfuel
    obtain ⟨m, rfl⟩ : ∃ m, fuel = m + 1 := ⟨fuel - 1, by omega⟩
    rw [ofiRun_succ]
    rfl
  | cons op rest ih =>
    intro fuel hfuel
    obtain ⟨m, rfl⟩ : ∃ m, fuel = m + 1 := ⟨fuel - 1, by omega⟩
    have hlen0 : rest.length + 3 ≤ m + 1 := by
      simpa [List.length_cons] using hfuel
    have hlen : rest.length + 2 ≤ m + 1 := by omega
    by_cases hop : op.action = Action.Increment
    · rw [ofiRun_succ, ofiNext_inc op rest _ _ hop, ← ofiRun_succ, ih (m + 1) hlen]
      simp [emitFrom, hop]
    · rw [ofiRun_succ, ofiNext_start op rest hop, ← ofiRun_succ,
        ofiRun_emitFrom_some rest (m + 1) op.key (updateF ⟨[], [], 0⟩ op) hlen]
      simp [emitFrom, hop]

theorem nonInc_no_inc (ops : List Op2) :
    ∀ o ∈ nonInc ops, o.action ≠ Action.Increment := by
  intro o ho
  have := List.of_mem_filter ho
  simpa using this

/-- Full characterisation of the emitted groups: they are the reference
groups of the maximal key-runs of the increment-free stream, empty
mid-stream groups suppressed and the final group kept unconditionally. -/
theorem ofiAll_runs (ops : List Op2) :
    ofiAll ops = emitRuns (keyRuns (nonInc ops)) := by
  rw [ofiAll, ofiRun_emitFrom_none ops (ops.length + 2) (le_refl _),
    emitFrom_nonInc, emitFrom_none (nonInc ops) (nonInc_no_inc ops)]

/-- Concatenation of the `ops` lists of a sequence of emitted groups. -/
def joinOps (gs : List OpsFound) : List Op2 := (gs.map OpsFound.ops).flatten

/-- The key identifying a run (the key of its first op). -/
def runKey : List Op2 → Option KeyRef
  | [] => none
  | o :: _ => some o.key

/-- A well-formed run partition: every run is non-empty and uniform in
key, and consecutive runs have different keys. -/
def runsWF (rs : List (List Op2)) : Prop :=
  (∀ run ∈ rs, run ≠ [] ∧ ∀ o ∈ run, some o.key = runKey run) ∧
    rs.Chain' (fun a b => runKey a ≠ runKey b)

theorem mergeFirst_flatten (run₀ : List Op2) (rs : List (List Op2)) (k : KeyRef) :
    (mergeFirst run₀ rs k).flatten = run₀ ++ rs.flatten := by
  match rs with
  | [] => simp [mergeFirst]
  | [] :: rs' => simp [mergeFirst]
  | (x :: xs) :: rs' => by_cases hx : x.key = k <;> simp [mergeFirst, hx]

theorem keyRuns_flatten (ops : List Op2) : (keyRuns ops).flatten = ops := by
  induction ops with
  | nil => rfl
  | cons op rest ih =>
    show (mergeFirst [op] (keyRuns rest) op.key).flatten = op :: rest
    rw [mergeFirst_flatten]
    simp [ih]

theorem keyRuns_wf (ops : List Op2) : runsWF (keyRuns ops) := by
  induction ops with
  | nil => exact ⟨by intro run hrun; exact absurd hrun (by simp [keyRuns]), List.chain'_nil⟩
  | cons op rest ih =>
    obtain ⟨huni, hch⟩ := ih
    show runsWF (mergeFirst [op] (keyRuns rest) op.key)
    match hkr : keyRuns rest with
    | [] =>
      refine ⟨?_, ?_⟩
      · intro run hrun
        simp only [mergeFirst] at hrun
        simp only [List.mem_singleton] at hrun
        subst hrun
        exact ⟨by simp, by simp [runKey]⟩
      · simp [mergeFirst]
    | [] :: rs' =>
      exact absurd rfl (huni [] (by rw [hkr]; exact List.mem_cons_self _ _)).1
    | (x :: xs) :: rs' =>
      rw [hkr] at huni hch
      by_cases hx : x.key = op.key
      · have hxsuni := huni (x :: xs) (List.mem_cons_self _ _)
        refine ⟨?_, ?_⟩
        · intro run hrun
          simp only [mergeFirst, if_pos hx, List.singleton_append] at hrun
          rcases List.mem_cons.mp hrun with rfl | htail
          · refine ⟨by simp, ?_⟩
            intro o ho
            rcases List.mem_cons.mp ho with rfl | ho'
            · rfl
            · have := hxsuni.2 o ho'
              simp only [runKey] at this ⊢
              rw [this, hx]
          · exact huni run (List.mem_cons_of_mem _ htail)
        · simp only [mergeFirst, if_pos hx, List.singleton_append]
          have hkeq : runKey (op :: x :: xs) = runKey (x :: xs) := by
            simp [runKey, hx]
          rw [List.chain'_cons'] at hch ⊢
          exact ⟨fun b hb => by rw [hkeq] at *; exact hch.1 b hb, hch.2⟩
      · refine ⟨?_, ?_⟩
        · intro run hrun
          simp only [mergeFirst, if_neg hx] at hrun
          rcases List.mem_cons.mp hrun with rfl | htail
          · exact ⟨by simp, by simp [runKey]⟩
          · exact huni run htail
        · simp only [mergeFirst, if_neg hx]
          rw [List.chain'_cons]
          refine ⟨?_, hch⟩
          simp only [runKey, ne_eq, Option.some.injEq]
          exact fun h => hx (h.symm)

theorem emitRuns_ne_nil : ∀ rs : List (List Op2), rs ≠ [] → emitRuns rs ≠ [] := by
  intro rs
  match rs with
  | [] => intro h; exact absurd rfl h
  | [r] => intro _; simp [emitRuns]
  | r :: r2 :: rs' =>
    intro _
    show emitOne (refGroup r) ++ emitRuns (r2 :: rs') ≠ []
    have := emitRuns_ne_nil (r2 :: rs') (by simp)
    intro hcontr
    rcases List.append_eq_nil.mp hcontr with ⟨_, h2⟩
    exact this h2

theorem emitOne_join (g : OpsFound) : joinOps (emitOne g) = g.ops := by
  by_cases h : g.ops.isEmpty
  · rw [List.isEmpty_iff.mp h]
    simp [emitOne, h, joinOps]
  · simp [emitOne, h, joinOps]

theorem emitRuns_join : ∀ rs : List (List Op2),
    joinOps (emitRuns rs) = (rs.map (fun r => r.filter (fun o => o.inScope))).flatten := by
  intro rs
  match rs with
  | [] => rfl
  | [r] => simp [emitRuns, joinOps, refGroup]
  | r :: r2 :: rs' =>
    show joinOps (emitOne (refGroup r) ++ emitRuns (r2 :: rs')) = _
    have ih := emitRuns_join (r2 :: rs')
    simp only [joinOps, List.map_append, List.flatten_append] at ih ⊢
    rw [show (List.map OpsFound.ops (emitOne (refGroup r))).flatten =
      joinOps (emitOne (refGroup r)) from rfl, emitOne_join, ih]
    simp [refGroup]

theorem emitRuns_mem : ∀ (rs : List (List Op2)) (g : OpsFound),
    g ∈ emitRuns rs → ∃ run, run ∈ rs ∧ g = refGroup run := by
  intro rs g
  match rs with
  | [] => intro h; exact absurd h (by simp [emitRuns])
  | [r] =>
    intro h
    simp only [emitRuns, List.mem_singleton] at h
    exact ⟨r, List.mem_singleton_self r, h⟩
  | r :: r2 :: rs' =>
    intro h
    rcases List.mem_append.mp h with hl | hr
    · refine ⟨r, List.mem_cons_self _ _, ?_⟩
      by_cases hemp : (refGroup r).ops.isEmpty <;> simp [emitOne, hemp] at hl
      exact hl
    · obtain ⟨run, hrun, hg⟩ := emitRuns_mem (r2 :: rs') g hr
      exact ⟨run, List.mem_cons_of_mem _ hrun, hg⟩

theorem emitRuns_getLast? : ∀ rs : List (List Op2),
    (emitRuns rs).getLast? = (rs.getLast?).map refGroup := by
  intro rs
  match rs with
  | [] => rfl
  | [r] => simp [emitRuns]
  | r :: r2 :: rs' =>
    show (emitOne (refGroup r) ++ emitRuns (r2 :: rs')).getLast? = _
    rw [List.getLast?_append_of_ne_nil _ (emitRuns_ne_nil (r2 :: rs') (by simp)),
      emitRuns_getLast? (r2 :: rs'), List.getLast?_cons_cons]

theorem emitRuns_dropLast : ∀ (rs : List (List Op2)) (g : OpsFound),
    g ∈ (emitRuns rs).dropLast → g.ops.isEmpty = false := by
  intro rs g
  match rs with
  | [] => intro h; exact absurd h (by simp [emitRuns])
  | [r] => intro h; exact absurd h (by simp [emitRuns])
  | r :: r2 :: rs' =>
    intro h
    have hne : (emitRuns (r2 :: rs')).isEmpty = false := by
      have := emitRuns_ne_nil (r2 :: rs') (by simp)
      cases hE : emitRuns (r2 :: rs') with
      | nil => exact absurd hE this
      | cons a l => rfl
    rw [show emitRuns (r :: r2 :: rs') =
      emitOne (refGroup r) ++ emitRuns (r2 :: rs') from rfl,
      List.dropLast_append, hne] at h
    simp only [Bool.false_eq_true, if_false, List.mem_append] at h
    rcases h with hl | hr
    · by_cases hemp : (refGroup r).ops.isEmpty <;> simp [emitOne, hemp] at hl
      rw [hl]
      simpa using hemp
    · exact emitRuns_dropLast (r2 :: rs') g hr

/-- C2: on any op stream, (1) the concatenation of the `ops` lists of
the emitted groups is the stream filtered by action ≠ `Increment` and by
`scope_to_clock`; (2) the emitted groups are exactly the reference
groups of the maximal `elemid_or_key` runs of the increment-free stream
(mid-stream groups with no scoped op suppressed, final group kept); (3)
those runs are a genuine partition: non-empty, key-uniform, flattening
back to the stream, with consecutive runs differing in key — so group
boundaries sit exactly at key changes; (4) every emitted group is the
reference group of one run, hence its `end_pos` is one past the position
of the last op observed for that key, scoped or not. -/
theorem found_ops_grouping (ops : List Op2) :
    joinOps (ofiAll ops) = (nonInc ops).filter (fun o => o.inScope) ∧
    ofiAll ops = emitRuns (keyRuns (nonInc ops)) ∧
    ((keyRuns (nonInc ops)).flatten = nonInc ops ∧ runsWF (keyRuns (nonInc ops))) ∧
    (∀ g ∈ ofiAll ops, ∃ run, run ∈ keyRuns (nonInc ops) ∧ g = refGroup run) := by
  refine ⟨?_, ofiAll_runs ops, ⟨keyRuns_flatten _, keyRuns_wf _⟩, ?_⟩
  · rw [ofiAll_runs, emitRuns_join, ← List.filter_flatten, keyRuns_flatten]
  · intro g hg
    rw [ofiAll_runs] at hg
    exact emitRuns_mem _ g hg

/-- Witness for C2 at a concrete stream: two keys, one op filtered by
scoping, one increment skipped. -/
theorem found_ops_grouping_witness :
    joinOps (ofiAll
        [⟨0, .Set, .Seq 0 1, true⟩, ⟨1, .Increment, .Seq 0 1, true⟩,
         ⟨2, .Set, .Seq 0 1, false⟩, ⟨3, .Set, .Seq 0 2, true⟩]) =
      [⟨0, .Set, .Seq 0 1, true⟩, ⟨3, .Set, .Seq 0 2, true⟩] ∧
    ∃ run, run ∈ keyRuns (nonInc
        [⟨0, .Set, .Seq 0 1, true⟩, ⟨1, .Increment, .Seq 0 1, true⟩,
         ⟨2, .Set, .Seq 0 1, false⟩, ⟨3, .Set, .Seq 0 2, true⟩]) ∧
      (⟨[0], [⟨0, .Set, .Seq 0 1, true⟩], 3⟩ : OpsFound) = refGroup run :=
  ⟨(found_ops_grouping _).1.trans (by decide),
   (found_ops_grouping _).2.2.2 ⟨[0], [⟨0, .Set, .Seq 0 1, true⟩], 3⟩ (by decide)⟩

/-- C3 counterexample: a single non-`Increment` op that is out of scope
at the clock. At exhaustion the iterator yields the buffered group even
though its `ops` list is empty (`found_op.rs` line 54 returns
`self.found.take()` with no emptiness check), so a group with an empty
`ops` list IS emitted. -/
theorem found_ops_nonempty_cex :
    ofiAll [⟨0, .Set, .Seq 0 1, false⟩] = [⟨[], [], 1⟩] ∧
    (ofiAll [⟨0, .Set, .Seq 0 1, false⟩]).any (fun g => g.ops.isEmpty) = true := by
  constructor <;> decide

/-- C3 (amended): every group except possibly the last has at least one
scoped op; the final buffered group is yielded exactly once at
exhaustion, but regardless of whether its `ops` list is empty (it is the
reference group of the last key-run). -/
theorem found_ops_final_group (ops : List Op2) :
    (∀ g ∈ (ofiAll ops).dropLast, g.ops.isEmpty = false) ∧
    (ofiAll ops).getLast? = ((keyRuns (nonInc ops)).getLast?).map refGroup := by
  constructor
  · intro g hg
    rw [ofiAll_runs] at hg
    exact emitRuns_dropLast _ g hg
  · rw [ofiAll_runs, emitRuns_getLast?]

/-- Witness for C3 (amended) at a concrete two-run stream. -/
theorem found_ops_final_group_witness :
    (⟨[0], [⟨0, .Set, .Seq 0 1, true⟩], 1⟩ : OpsFound) ∈
      (ofiAll [⟨0, .Set, .Seq 0 1, true⟩, ⟨1, .Set, .Seq 0 2, true⟩]).dropLast ∧
    (⟨[0], [⟨0, .Set, .Seq 0 1, true⟩], 1⟩ : OpsFound).ops.isEmpty = false :=
  ⟨by decide,
   (found_ops_final_group [⟨0, .Set, .Seq 0 1, true⟩, ⟨1, .Set, .Seq 0 2, true⟩]).1
     ⟨[0], [⟨0, .Set, .Seq 0 1, true⟩], 1⟩ (by decide)⟩

/-! ## Per-node visibility `Index` (`query.rs`)

`query.rs` works over `crate::types::{Op, OpId, Key, OpType}` and
`crate::marks::MarkData`, none of which are in the provided sources;
they are modelled from the spec (sections 3, 4.6). The `Index` itself
(`query.rs` lines 130-321) is embedded from the source; its `HashMap` /
`HashSet` fields become functions to `Option` / `Bool` (equal as Rust
maps iff pointwise equal), and `mark_end: Vec<OpId>` stays a list. -/

/-- `OpId(actor, counter)` — spec glossary. -/
structure OpId where
  actor : Nat
  counter : Nat
  deriving DecidableEq, Repr

/-- Modelled from the spec: `op_id.prev()` is the id with the previous
counter, since "a `MarkBegin(op_id)` is cancelled by a
`MarkEnd(next(op_id))`" (spec section 3). -/
def OpId.prev (id : OpId) : OpId := ⟨id.actor, id.counter - 1⟩

/-- Modelled from the spec (section 3 "Op", 4.6): the fields of
`crate::types::Op` that `Index` reads: `id`, the `insert` flag, the
`action` (`OpType`), `elemid_or_key()`, the derived visibility predicate
`op.visible()` and `op.width(ListEncoding::Text)` — the latter two enter
the model as attributes of the op view. -/
structure OpQ where
  id : OpId
  insert : Bool
  action : OpTypeB
  key : KeyRef
  visible : Bool
  width : Nat
  deriving DecidableEq, Repr

/-- `TextWidth` (`query.rs` lines 83-128). -/
structure TextWidth where
  width : Nat
  deriving DecidableEq, Repr

/-- `TextWidth::add_op` (`query.rs` lines 90-92). -/
def TextWidth.add_op (t : TextWidth) (op : OpQ) : TextWidth := ⟨t.width + op.width⟩

/-- `TextWidth::remove_op` (`query.rs` lines 94-123): saturating
subtraction, which is exactly `Nat`-subtraction. -/
def TextWidth.remove_op (t : TextWidth) (op : OpQ) : TextWidth := ⟨t.width - op.width⟩

/-- `TextWidth::merge` (`query.rs` lines 125-127). -/
def TextWidth.mergeW (t other : TextWidth) : TextWidth := ⟨t.width + other.width⟩

/-- `ChangeVisibility` (`query.rs` lines 28-33). -/
structure ChangeVisibility where
  old_vis : Bool
  new_vis : Bool
  op : OpQ
  deriving DecidableEq, Repr

/-- `Index` (`query.rs` lines 130-140). -/
@[ext]
structure Index where
  visible : KeyRef → Option Nat
  visible_text : TextWidth
  ops : OpId → Bool
  never_seen_puts : Bool
  mark_begin : OpId → Option MarkDataB
  mark_end : List OpId

/-- `Index::new` (`query.rs` lines 187-196). -/
def Index.new : Index :=
  { visible := fun _ => none,
    visible_text := ⟨0⟩,
    ops := fun _ => false,
    never_seen_puts := true,
    mark_begin := fun _ => none,
    mark_end := [] }

/-- `Index::has_visible` (`query.rs` lines 206-208). -/
def Index.has_visible (i : Index) (seen : KeyRef) : Bool := (i.visible seen).isSome

/-- `Index::change_vis` (`query.rs` lines 210-242). `none` models the
`panic!("remove overun in index")`; on success the mutated index is
returned along with the unchanged `ChangeVisibility` argument (the Rust
function returns its argument back). -/
def Index.change_vis (i : Index) (cv : ChangeVisibility) :
    Option (Index × ChangeVisibility) :=
  let key := cv.op.key
  match cv.old_vis, cv.new_vis with
  | true, false =>
    match i.visible key with
    | some n =>
      if n = 1 then
        some ({ i with visible := fun k => if k = key then none else i.visible k,
                       visible_text := i.visible_text.remove_op cv.op }, cv)
      else
        some ({ i with
          visible := fun k => if k = key then some (n - 1) else i.visible k }, cv)
    | none => none
  | false, true =>
    match i.visible key with
    | some n =>
      some ({ i with
        visible := fun k => if k = key then some (n + 1) else i.visible k }, cv)
    | none =>
      some ({ i with visible := fun k => if k = key then some 1 else i.visible k,
                     visible_text := i.visible_text.add_op cv.op }, cv)
  | _, _ => some (i, cv)

/-- `Index::insert` (`query.rs` lines 244-273). -/
def Index.insert (i : Index) (op : OpQ) : Index :=
  let i := { i with never_seen_puts := i.never_seen_puts && op.insert }
  let i := { i with ops := fun x => if x = op.id then true else i.ops x }
  let i :=
    match op.action with
    | .MarkBegin _ data =>
      { i with mark_begin := fun x => if x = op.id then some data else i.mark_begin x }
    | .MarkEnd _ =>
      match i.mark_begin op.id.prev with
      | some _ =>
        { i with mark_begin := fun x => if x = op.id.prev then none else i.mark_begin x }
      | none => { i with mark_end := i.mark_end ++ [op.id] }
    | _ => i
  if op.visible then
    let key := op.key
    match i.visible key with
    | some n =>
      { i with visible := fun k => if k = key then some (n + 1) else i.visible k }
    | none =>
      { i with visible := fun k => if k = key then some 1 else i.visible k,
               visible_text := i.visible_text.add_op op }
  else i

/-- `Index::remove` (`query.rs` lines 275-304). `none` models the
`panic!("remove overun in index")`. -/
def Index.remove (i : Index) (op : OpQ) : Option Index :=
  let i := { i with ops := fun x => if x = op.id then false else i.ops x }
  let i :=
    match op.action with
    | .MarkBegin _ _ =>
      { i with mark_begin := fun x => if x = op.id then none else i.mark_begin x }
    | .MarkEnd _ =>
      { i with mark_end := i.mark_end.filter (fun x => decide (x ≠ op.id)) }
    | _ => i
  if op.visible then
    let key := op.key
    match i.visible key with
    | some n =>
      if n = 1 then
        some { i with visible := fun k => if k = key then none else i.visible k,
                      visible_text := i.visible_text.remove_op op }
      else
        some { i with
          visible := fun k => if k = key then some (n - 1) else i.visible k }
    | none => none
  else some i

/-- `Index::merge` (`query.rs` lines 306-320): union the op-id set, sum
visible counters per key, absorb `other`'s `mark_begin` entries
(overwriting on collision, as `HashMap::extend` does), append
`mark_end`, add widths, and-combine `never_seen_puts`. -/
def Index.merge (i other : Index) : Index :=
  { ops := fun x => i.ops x || other.ops x,
    visible := fun k =>
      match i.visible k, other.visible k with
      | some a, some b => some (a + b)
      | some a, none => some a
      | none, some b => some b
      | none, none => none,
    mark_begin := fun x =>
      match other.mark_begin x with
      | some d => some d
      | none => i.mark_begin x,
    mark_end := i.mark_end ++ other.mark_end,
    visible_text := i.visible_text.mergeW other.visible_text,
    never_seen_puts := i.never_seen_puts && other.never_seen_puts }

/-- Insert a list of ops in order. -/
def insertAll (i : Index) (S : List OpQ) : Index := S.foldl Index.insert i

/-- Remove a list of ops in order; fails if any removal panics. -/
def removeAll (i : Index) (S : List OpQ) : Option Index :=
  S.foldlM Index.remove i

/-- C6: case analysis of `Index::change_vis`. `(true, false)` decrements
the count for `op.elemid_or_key()`, erasing the key and subtracting the
op's text width (saturating) on the 1 → 0 transition, and panicking when
the key is absent; `(false, true)` increments, adding the text width
when the key was absent; equal flags change nothing; every non-panicking
case hands the `ChangeVisibility` argument back unchanged. -/
theorem index_change_vis (i : Index) (op : OpQ) :
    (i.visible op.key = some 1 →
      i.change_vis ⟨true, false, op⟩ =
        some ({ i with
          visible := fun k => if k = op.key then none else i.visible k,
          visible_text := ⟨i.visible_text.width - op.width⟩ },
          ⟨true, false, op⟩)) ∧
    (∀ n, i.visible op.key = some n → ¬ n = 1 →
      i.change_vis ⟨true, false, op⟩ =
        some ({ i with
          visible := fun k => if k = op.key then some (n - 1) else i.visible k },
          ⟨true, false, op⟩)) ∧
    (i.visible op.key = none → i.change_vis ⟨true, false, op⟩ = none) ∧
    (∀ n, i.visible op.key = some n →
      i.change_vis ⟨false, true, op⟩ =
        some ({ i with
          visible := fun k => if k = op.key then some (n + 1) else i.visible k },
          ⟨false, true, op⟩)) ∧
    (i.visible op.key = none →
      i.change_vis ⟨false, true, op⟩ =
        some ({ i with
          visible := fun k => if k = op.key then some 1 else i.visible k,
          visible_text := ⟨i.visible_text.width + op.width⟩ },
          ⟨false, true, op⟩)) ∧
    (∀ b : Bool, i.change_vis ⟨b, b, op⟩ = some (i, ⟨b, b, op⟩)) := by
  refine ⟨?_, ?_, ?_, ?_, ?_, ?_⟩
  · intro h
    simp [Index.change_vis, h, TextWidth.remove_op]
  · intro n h hn
    simp [Index.change_vis, h, hn]
  · intro h
    simp [Index.change_vis, h]
  · intro n h
    simp [Index.change_vis, h]
  · intro h
    simp [Index.change_vis, h, TextWidth.add_op]
  · intro b
    cases b <;> rfl

/-- A concrete visible op for the `change_vis` witness. -/
def opW : OpQ := ⟨⟨0, 1⟩, true, .Delete, .Seq 0 1, true, 2⟩

/-- Witness for C6: the spec's scenario — an index holding one visible
op for key `K`; `change_vis{old=true, new=false}` erases `K` and
subtracts that op's width. -/
theorem index_change_vis_witness :
    (Index.new.insert opW).visible opW.key = some 1 ∧
    (Index.new.insert opW).change_vis ⟨true, false, opW⟩ =
      some ({ Index.new.insert opW with
        visible := fun k =>
          if k = opW.key then none else (Index.new.insert opW).visible k,
        visible_text :=
          ⟨(Index.new.insert opW).visible_text.width - opW.width⟩ },
        ⟨true, false, opW⟩) :=
  ⟨rfl, (index_change_vis (Index.new.insert opW) opW).1 rfl⟩

/-! ### Per-field characterisation of `insert` / `remove`

`Index::insert` and `Index::remove` act on independent groups of fields
(the visibility pair, the op-id set, the mark state, the flag); the
following step functions capture each group, and the characterisation
lemmas show the methods are exactly the product of the steps. -/

/-- The visibility branch of `Index::insert` on the pair
`(visible, visible_text.width)`. -/
def visStepIns (vw : (KeyRef → Option Nat) × Nat) (op : OpQ) :
    (KeyRef → Option Nat) × Nat :=
  if op.visible then
    match vw.1 op.key with
    | some n => (fun k => if k = op.key then some (n + 1) else vw.1 k, vw.2)
    | none => (fun k => if k = op.key then some 1 else vw.1 k, vw.2 + op.width)
  else vw

/-- The visibility branch of `Index::remove`; `none` is the panic. -/
def visStepRem (vw : (KeyRef → Option Nat) × Nat) (op : OpQ) :
    Option ((KeyRef → Option Nat) × Nat) :=
  if op.visible then
    match vw.1 op.key with
    | some n =>
      if n = 1 then
        some (fun k => if k = op.key then none else vw.1 k, vw.2 - op.width)
      else some (fun k => if k = op.key then some (n - 1) else vw.1 k, vw.2)
    | none => none
  else some vw

/-- The op-id branch of `Index::insert`. -/
def opsStepIns (f : OpId → Bool) (op : OpQ) : OpId → Bool :=
  fun x => if x = op.id then true else f x

/-- The op-id branch of `Index::remove`. -/
def opsStepRem (f : OpId → Bool) (op : OpQ) : OpId → Bool :=
  fun x => if x = op.id then false else f x

/-- The mark branch of `Index::insert` on `(mark_begin, mark_end)`. -/
def marksStepIns (bm : (OpId → Option MarkDataB) × List OpId) (op : OpQ) :
    (OpId → Option MarkDataB) × List OpId :=
  match op.action with
  | .MarkBegin _ data =>
    (fun x => if x = op.id then some data else bm.1 x, bm.2)
  | .MarkEnd _ =>
    match bm.1 op.id.prev with
    | some _ => (fun x => if x = op.id.prev then none else bm.1 x, bm.2)
    | none => (bm.1, bm.2 ++ [op.id])
  | _ => bm

/-- The `mark_begin` branch of `Index::remove`. -/
def mbStepRem (mb : OpId → Option MarkDataB) (op : OpQ) : OpId → Option MarkDataB :=
  match op.action with
  | .MarkBegin _ _ => fun x => if x = op.id then none else mb x
  | _ => mb

/-- The `mark_end` branch of `Index::remove`. -/
def meStepRem (me : List OpId) (op : OpQ) : List OpId :=
  match op.action with
  | .MarkEnd _ => me.filter (fun x => decide (x ≠ op.id))
  | _ => me

theorem opsStepIns_or (f : OpId → Bool) (op : OpQ) :
    opsStepIns f op = fun x => decide (x = op.id) || f x := by
  funext x
  by_cases hx : x = op.id <;> simp [opsStepIns, hx]

theorem opsStepRem_and (f : OpId → Bool) (op : OpQ) :
    opsStepRem f op = fun x => !decide (x = op.id) && f x := by
  funext x
  by_cases hx : x = op.id <;> simp [opsStepRem, hx]

theorem insert_char (i : Index) (op : OpQ) :
    i.insert op =
      { visible := (visStepIns (i.visible, i.visible_text.width) op).1,
        visible_text := ⟨(visStepIns (i.visible, i.visible_text.width) op).2⟩,
        ops := opsStepIns i.ops op,
        never_seen_puts := i.never_seen_puts && op.insert,
        mark_begin := (marksStepIns (i.mark_begin, i.mark_end) op).1,
        mark_end := (marksStepIns (i.mark_begin, i.mark_end) op).2 } := by
  cases ha : op.action <;> cases hv : op.visible <;>
    simp only [Index.insert, visStepIns, marksStepIns, opsStepIns, ha, hv,
      Bool.false_eq_true, if_false, if_true] <;>
    (try split) <;>
    (try split) <;>
    simp_all [TextWidth.add_op, opsStepIns_or]

theorem remove_char (i : Index) (op : OpQ) :
    i.remove op =
      (visStepRem (i.visible, i.visible_text.width) op).map (fun vw =>
        { visible := vw.1,
          visible_text := ⟨vw.2⟩,
          ops := opsStepRem i.ops op,
          never_seen_puts := i.never_seen_puts,
          mark_begin := mbStepRem i.mark_begin op,
          mark_end := meStepRem i.mark_end op }) := by
  cases ha : op.action <;> cases hv : op.visible <;>
    simp only [Index.remove, visStepRem, mbStepRem, meStepRem, opsStepRem, ha, hv,
      Bool.false_eq_true, if_false, if_true] <;>
    (try split) <;>
    (try split) <;>
    simp_all [TextWidth.remove_op, opsStepRem_and]

/-- Fold of the visibility-insert step. -/
def visFoldIns (vw : (KeyRef → Option Nat) × Nat) (S : List OpQ) :
    (KeyRef → Option Nat) × Nat :=
  S.foldl visStepIns vw

/-- Fold of the visibility-remove step (failing on panic). -/
def visFoldRem (vw : (KeyRef → Option Nat) × Nat) (S : List OpQ) :
    Option ((KeyRef → Option Nat) × Nat) :=
  S.foldlM visStepRem vw

theorem insertAll_char (S : List OpQ) : ∀ i : Index,
    insertAll i S =
      { visible := (visFoldIns (i.visible, i.visible_text.width) S).1,
        visible_text := ⟨(visFoldIns (i.visible, i.visible_text.width) S).2⟩,
        ops := S.foldl opsStepIns i.ops,
        never_seen_puts := i.never_seen_puts && S.all (fun op => op.insert),
        mark_begin := (S.foldl marksStepIns (i.mark_begin, i.mark_end)).1,
        mark_end := (S.foldl marksStepIns (i.mark_begin, i.mark_end)).2 } := by
  induction S with
  | nil => intro i; simp [insertAll, visFoldIns]
  | cons op S' ih =>
    intro i
    have step : insertAll i (op :: S') = insertAll (i.insert op) S' := rfl
    rw [step, ih (i.insert op), insert_char i op]
    simp only [insertAll, visFoldIns, List.foldl_cons, List.all_cons]
    rw [Bool.and_assoc]

theorem removeAll_char (S : List OpQ) : ∀ i : Index,
    removeAll i S =
      (visFoldRem (i.visible, i.visible_text.width) S).map (fun vw =>
        { visible := vw.1,
          visible_text := ⟨vw.2⟩,
          ops := S.foldl opsStepRem i.ops,
          never_seen_puts := i.never_seen_puts,
          mark_begin := S.foldl mbStepRem i.mark_begin,
          mark_end := S.foldl meStepRem i.mark_end }) := by
  induction S with
  | nil => intro i; rfl
  | cons op S' ih =>
    intro i
    have step : removeAll i (op :: S') =
        (i.remove op).bind (fun j => removeAll j S') := by
      simp [removeAll, List.foldlM_cons]
    rw [step, remove_char i op]
    cases hs : visStepRem (i.visible, i.visible_text.width) op with
    | none =>
      have hfold : visFoldRem (i.visible, i.visible_text.width) (op :: S') = none := by
        simp [visFoldRem, List.foldlM_cons, hs]
      rw [hfold]
      rfl
    | some vw =>
      have hfold : visFoldRem (i.visible, i.visible_text.width) (op :: S') =
          visFoldRem vw S' := by
        simp [visFoldRem, List.foldlM_cons, hs]
      rw [hfold]
      show removeAll
        { visible := vw.1, visible_text := ⟨vw.2⟩, ops := opsStepRem i.ops op,
          never_seen_puts := i.never_seen_puts,
          mark_begin := mbStepRem i.mark_begin op,
          mark_end := meStepRem i.mark_end op } S' = _
      rw [ih]
      rfl

/-- The stored-count invariant: `visible` never stores `0`. -/
def visInvariant (v : KeyRef → Option Nat) : Prop := ∀ k n, v k = some n → 1 ≤ n

theorem visStepIns_inv (vw : (KeyRef → Option Nat) × Nat) (op : OpQ)
    (h : visInvariant vw.1) : visInvariant (visStepIns vw op).1 := by
  intro k n hk
  by_cases hv : op.visible
  · cases hkey : vw.1 op.key with
    | some m =>
      have happ : (visStepIns vw op).1 k =
          if k = op.key then some (m + 1) else vw.1 k := by
        simp [visStepIns, hv, hkey]
      rw [happ] at hk
      by_cases he : k = op.key
      · rw [if_pos he] at hk
        injection hk with h'
        omega
      · rw [if_neg he] at hk
        exact h k n hk
    | none =>
      have happ : (visStepIns vw op).1 k =
          if k = op.key then some 1 else vw.1 k := by
        simp [visStepIns, hv, hkey]
      rw [happ] at hk
      by_cases he : k = op.key
      · rw [if_pos he] at hk
        injection hk with h'
        omega
      · rw [if_neg he] at hk
        exact h k n hk
  · have happ : visStepIns vw op = vw := by simp [visStepIns, hv]
    rw [happ] at hk
    exact h k n hk

theorem visStepRem_vis_some (vw : (KeyRef → Option Nat) × Nat) (op : OpQ) (n : Nat)
    (hv : op.visible = true) (hk : vw.1 op.key = some n) :
    visStepRem vw op =
      if n = 1 then
        some (fun k => if k = op.key then none else vw.1 k, vw.2 - op.width)
      else some (fun k => if k = op.key then some (n - 1) else vw.1 k, vw.2) := by
  simp [visStepRem, hv, hk]

theorem visStepRem_vis_none (vw : (KeyRef → Option Nat) × Nat) (op : OpQ)
    (hv : op.visible = true) (hk : vw.1 op.key = none) :
    visStepRem vw op = none := by
  simp [visStepRem, hv, hk]

theorem visStepRem_invis (vw : (KeyRef → Option Nat) × Nat) (op : OpQ)
    (hv : op.visible = false) : visStepRem vw op = some vw := by
  simp [visStepRem, hv]

theorem visStepRem_visStepIns (vw : (KeyRef → Option Nat) × Nat) (op : OpQ)
    (h : visInvariant vw.1) : visStepRem (visStepIns vw op) op = some vw := by
  by_cases hv : op.visible = true
  · cases hkey : vw.1 op.key with
    | some m =>
      have hm := h op.key m hkey
      have hins : visStepIns vw op =
          (fun k => if k = op.key then some (m + 1) else vw.1 k, vw.2) := by
        simp [visStepIns, hv, hkey]
      have hlook :
          (visStepIns vw op).1 op.key = some (m + 1) := by
        rw [hins]
        simp
      rw [visStepRem_vis_some (visStepIns vw op) op (m + 1) hv hlook,
        if_neg (show ¬ (m + 1 = 1) by omega), hins]
      refine congrArg some (Prod.ext ?_ rfl)
      funext k
      by_cases he : k = op.key
      · subst he
        simp [hkey]
      · simp [he]
    | none =>
      have hins : visStepIns vw op =
          (fun k => if k = op.key then some 1 else vw.1 k, vw.2 + op.width) := by
        simp [visStepIns, hv, hkey]
      have hlook : (visStepIns vw op).1 op.key = some 1 := by
        rw [hins]
        simp
      rw [visStepRem_vis_some (visStepIns vw op) op 1 hv hlook, if_pos rfl, hins]
      refine congrArg some (Prod.ext ?_ ?_)
      · funext k
        by_cases he : k = op.key
        · subst he
          simp [hkey]
        · simp [he]
      · show vw.2 + op.width - op.width = vw.2
        omega
  · have hv' : op.visible = false := by
      cases hb : op.visible
      · rfl
      · exact absurd hb hv
    have hins : visStepIns vw op = vw := by simp [visStepIns, hv']
    rw [hins, visStepRem_invis vw op hv']

theorem visCollapse (S : List OpQ) : ∀ vw : (KeyRef → Option Nat) × Nat,
    visInvariant vw.1 → visFoldRem (visFoldIns vw S) S.reverse = some vw := by
  induction S with
  | nil => intro vw _; rfl
  | cons op S' ih =>
    intro vw hinv
    have h1 : visFoldIns vw (op :: S') = visFoldIns (visStepIns vw op) S' := rfl
    have h2 : (op :: S').reverse = S'.reverse ++ [op] := by simp
    rw [h1, h2]
    show List.foldlM visStepRem (visFoldIns (visStepIns vw op) S')
      (S'.reverse ++ [op]) = some vw
    rw [List.foldlM_append]
    have := ih (visStepIns vw op) (visStepIns_inv vw op hinv)
    rw [show List.foldlM visStepRem (visFoldIns (visStepIns vw op) S') S'.reverse =
      visFoldRem (visFoldIns (visStepIns vw op) S') S'.reverse from rfl, this]
    simp [visStepRem_visStepIns vw op hinv]

theorem opsFoldIns_eq (S : List OpQ) : ∀ (f : OpId → Bool) (x : OpId),
    (S.foldl opsStepIns f) x = if x ∈ S.map OpQ.id then true else f x := by
  induction S with
  | nil => intro f x; simp
  | cons op S' ih =>
    intro f x
    rw [List.foldl_cons, ih (opsStepIns f op) x]
    by_cases hmem : x ∈ S'.map OpQ.id
    · simp [List.mem_cons, hmem]
    · by_cases hx : x = op.id <;> simp [opsStepIns, List.mem_cons, hmem, hx]

theorem opsFoldRem_eq (S : List OpQ) : ∀ (f : OpId → Bool) (x : OpId),
    (S.foldl opsStepRem f) x = if x ∈ S.map OpQ.id then false else f x := by
  induction S with
  | nil => intro f x; simp
  | cons op S' ih =>
    intro f x
    rw [List.foldl_cons, ih (opsStepRem f op) x]
    by_cases hmem : x ∈ S'.map OpQ.id
    · simp [List.mem_cons, hmem]
    · by_cases hx : x = op.id <;> simp [opsStepRem, List.mem_cons, hmem, hx]

/-- Whether the op is a `MarkBegin`. -/
def isBeginOp (o : OpQ) : Bool :=
  match o.action with
  | .MarkBegin _ _ => true
  | _ => false

/-- Whether the op is a `MarkEnd`. -/
def isEndOp (o : OpQ) : Bool :=
  match o.action with
  | .MarkEnd _ => true
  | _ => false

/-- Ids of the `MarkBegin` ops of a list. -/
def beginIds (S : List OpQ) : List OpId := (S.filter isBeginOp).map OpQ.id

/-- Ids of the `MarkEnd` ops of a list. -/
def endIds (S : List OpQ) : List OpId := (S.filter isEndOp).map OpQ.id

theorem beginIds_cons (op : OpQ) (S : List OpQ) :
    beginIds (op :: S) =
      if isBeginOp op then op.id :: beginIds S else beginIds S := by
  by_cases h : isBeginOp op <;> simp [beginIds, List.filter_cons, h]

theorem endIds_cons (op : OpQ) (S : List OpQ) :
    endIds (op :: S) = if isEndOp op then op.id :: endIds S else endIds S := by
  by_cases h : isEndOp op <;> simp [endIds, List.filter_cons, h]

theorem mbStepRem_begin (mb : OpId → Option MarkDataB) (op : OpQ)
    (h : isBeginOp op = true) :
    mbStepRem mb op = fun y => if y = op.id then none else mb y := by
  cases ha : op.action <;> simp_all [isBeginOp, mbStepRem]

theorem mbStepRem_other (mb : OpId → Option MarkDataB) (op : OpQ)
    (h : isBeginOp op = false) : mbStepRem mb op = mb := by
  cases ha : op.action <;> simp_all [isBeginOp, mbStepRem]

theorem meStepRem_end (me : List OpId) (op : OpQ) (h : isEndOp op = true) :
    meStepRem me op = me.filter (fun x => decide (x ≠ op.id)) := by
  cases ha : op.action <;> simp_all [isEndOp, meStepRem]

theorem meStepRem_other (me : List OpId) (op : OpQ) (h : isEndOp op = false) :
    meStepRem me op = me := by
  cases ha : op.action <;> simp_all [isEndOp, meStepRem]

theorem mbFoldRem_eq (S : List OpQ) : ∀ (mb : OpId → Option MarkDataB) (x : OpId),
    (S.foldl mbStepRem mb) x = if x ∈ beginIds S then none else mb x := by
  induction S with
  | nil => intro mb x; simp [beginIds]
  | cons op S' ih =>
    intro mb x
    rw [List.foldl_cons, ih (mbStepRem mb op) x]
    by_cases hb : isBeginOp op
    · rw [mbStepRem_begin mb op hb, beginIds_cons, if_pos hb]
      by_cases hmem : x ∈ beginIds S'
      · simp [hmem]
      · by_cases hx : x = op.id <;> simp [hmem, hx]
    · rw [mbStepRem_other mb op (by simpa using hb), beginIds_cons,
        if_neg hb]

theorem meFoldRem_eq (S : List OpQ) : ∀ me : List OpId,
    S.foldl meStepRem me = me.filter (fun x => decide (x ∉ endIds S)) := by
  induction S with
  | nil =>
    intro me
    simp [endIds, List.filter_eq_self]
  | cons op S' ih =>
    intro me
    rw [List.foldl_cons, ih (meStepRem me op)]
    by_cases he : isEndOp op
    · rw [meStepRem_end me op he, List.filter_filter, endIds_cons, if_pos he]
      apply List.filter_congr
      intro x _
      by_cases h1 : x ∈ endIds S' <;> by_cases h2 : x = op.id <;>
        simp [h1, h2, List.mem_cons]
    · rw [meStepRem_other me op (by simpa using he), endIds_cons, if_neg he]

theorem marksStepIns_mb (bm : (OpId → Option MarkDataB) × List OpId) (op : OpQ)
    (x : OpId) (h : ((marksStepIns bm op).1 x).isSome = true) :
    (bm.1 x).isSome = true ∨ (isBeginOp op = true ∧ x = op.id) := by
  cases ha : op.action with
  | MarkBegin e d =>
    simp only [marksStepIns, ha] at h
    by_cases hx : x = op.id
    · exact Or.inr ⟨by simp [isBeginOp, ha], hx⟩
    · left
      simpa [hx] using h
  | MarkEnd e =>
    simp only [marksStepIns, ha] at h
    cases hprev : bm.1 op.id.prev with
    | some d =>
      rw [hprev] at h
      simp only at h
      by_cases hx : x = op.id.prev
      · rw [if_pos hx] at h
        simp at h
      · rw [if_neg hx] at h
        exact Or.inl h
    | none =>
      rw [hprev] at h
      exact Or.inl h
  | Make t => simp only [marksStepIns, ha] at h; exact Or.inl h
  | Delete => simp only [marksStepIns, ha] at h; exact Or.inl h
  | Increment n => simp only [marksStepIns, ha] at h; exact Or.inl h
  | Put v => simp only [marksStepIns, ha] at h; exact Or.inl h

theorem marksStepIns_me (bm : (OpId → Option MarkDataB) × List OpId) (op : OpQ)
    (x : OpId) (h : x ∈ (marksStepIns bm op).2) :
    x ∈ bm.2 ∨ (isEndOp op = true ∧ x = op.id) := by
  cases ha : op.action with
  | MarkEnd e =>
    simp only [marksStepIns, ha] at h
    cases hprev : bm.1 op.id.prev with
    | some d =>
      rw [hprev] at h
      exact Or.inl h
    | none =>
      rw [hprev] at h
      simp only at h
      rcases List.mem_append.mp h with h1 | h2
      · exact Or.inl h1
      · exact Or.inr ⟨by simp [isEndOp, ha], by simpa using h2⟩
  | MarkBegin e d => simp only [marksStepIns, ha] at h; exact Or.inl h
  | Make t => simp only [marksStepIns, ha] at h; exact Or.inl h
  | Delete => simp only [marksStepIns, ha] at h; exact Or.inl h
  | Increment n => simp only [marksStepIns, ha] at h; exact Or.inl h
  | Put v => simp only [marksStepIns, ha] at h; exact Or.inl h

/-- Insert-phase mark invariant: after folding inserts, every id mapped
in `mark_begin` is the id of some inserted `MarkBegin`, and every id in
`mark_end` is the id of some inserted `MarkEnd`. -/
theorem marksFoldIns_inv (S : List OpQ) :
    ∀ bm : (OpId → Option MarkDataB) × List OpId,
    (∀ x, ((S.foldl marksStepIns bm).1 x).isSome = true →
      (bm.1 x).isSome = true ∨ x ∈ beginIds S) ∧
    (∀ x, x ∈ (S.foldl marksStepIns bm).2 → x ∈ bm.2 ∨ x ∈ endIds S) := by
  induction S with
  | nil =>
    intro bm
    exact ⟨fun x h => Or.inl h, fun x h => Or.inl h⟩
  | cons op S' ih =>
    intro bm
    obtain ⟨ih1, ih2⟩ := ih (marksStepIns bm op)
    rw [List.foldl_cons]
    constructor
    · intro x hx
      rcases ih1 x hx with hsome | hmem
      · rcases marksStepIns_mb bm op x hsome with h1 | ⟨hb, rfl⟩
        · exact Or.inl h1
        · right
          rw [beginIds_cons, if_pos hb]
          exact List.mem_cons_self _ _
      · right
        rw [beginIds_cons]
        by_cases hb : isBeginOp op
        · rw [if_pos hb]
          exact List.mem_cons_of_mem _ hmem
        · rwa [if_neg hb]
    · intro x hx
      rcases ih2 x hx with hsome | hmem
      · rcases marksStepIns_me bm op x hsome with h1 | ⟨hb, rfl⟩
        · exact Or.inl h1
        · right
          rw [endIds_cons, if_pos hb]
          exact List.mem_cons_self _ _
      · right
        rw [endIds_cons]
        by_cases hb : isEndOp op
        · rw [if_pos hb]
          exact List.mem_cons_of_mem _ hmem
        · rwa [if_neg hb]

/-- C1 (amended): inserting any op sequence `S` into a fresh index and
then removing it in reverse order restores `visible`,
`visible_text.width`, `ops`, `mark_begin` and `mark_end` to their
`Index::new()` values, with no removal panicking and no saturation of
the width subtraction; `never_seen_puts`, however, is the AND of
`op.insert` over `S` — `remove` never restores it — so full equality
with `Index::new()` holds exactly when every op of `S` has
`insert == true`. -/
theorem roundTrip_char (S : List OpQ) (i : Index) :
    removeAll (insertAll i S) S.reverse =
      (visFoldRem (visFoldIns (i.visible, i.visible_text.width) S) S.reverse).map
        (fun vw =>
          { visible := vw.1,
            visible_text := ⟨vw.2⟩,
            ops := S.reverse.foldl opsStepRem (S.foldl opsStepIns i.ops),
            never_seen_puts := i.never_seen_puts && S.all (fun op => op.insert),
            mark_begin :=
              S.reverse.foldl mbStepRem
                (S.foldl marksStepIns (i.mark_begin, i.mark_end)).1,
            mark_end :=
              S.reverse.foldl meStepRem
                (S.foldl marksStepIns (i.mark_begin, i.mark_end)).2 }) := by
  rw [insertAll_char S i, removeAll_char S.reverse]

theorem index_insert_remove_inverse (S : List OpQ) :
    removeAll (insertAll Index.new S) S.reverse =
      some { Index.new with never_seen_puts := S.all (fun op => op.insert) } := by
  rw [roundTrip_char S Index.new,
    visCollapse S (Index.new.visible, Index.new.visible_text.width)
      (by intro k n h; simp [Index.new] at h)]
  simp only [Option.map_some']
  refine congrArg some (Index.ext rfl rfl ?hops ?hnsp ?hmb ?hme)
  case hops =>
    funext x
    show (List.foldl opsStepRem (List.foldl opsStepIns Index.new.ops S) S.reverse) x
      = Index.new.ops x
    rw [opsFoldRem_eq, opsFoldIns_eq]
    have hrev : (x ∈ S.reverse.map OpQ.id) ↔ (x ∈ S.map OpQ.id) := by
      simp [List.mem_map, List.mem_reverse]
    by_cases hmem : x ∈ S.map OpQ.id
    · rw [if_pos (hrev.mpr hmem)]
      rfl
    · rw [if_neg (fun h => hmem (hrev.mp h)), if_neg hmem]
  case hnsp =>
    show (Index.new.never_seen_puts && S.all (fun op => op.insert))
      = S.all (fun op => op.insert)
    simp [Index.new]
  case hmb =>
    funext x
    show (List.foldl mbStepRem
      (List.foldl marksStepIns (Index.new.mark_begin, Index.new.mark_end) S).1
        S.reverse) x = Index.new.mark_begin x
    rw [mbFoldRem_eq]
    have hrev : (x ∈ beginIds S.reverse) ↔ (x ∈ beginIds S) := by
      simp [beginIds, List.mem_map, List.mem_filter, List.mem_reverse]
    by_cases hmem : x ∈ beginIds S
    · rw [if_pos (hrev.mpr hmem)]
      rfl
    · rw [if_neg (fun h => hmem (hrev.mp h))]
      cases hx : (S.foldl marksStepIns (Index.new.mark_begin, Index.new.mark_end)).1 x with
      | none => rfl
      | some d =>
        have hinv := (marksFoldIns_inv S (Index.new.mark_begin, Index.new.mark_end)).1
          x (by rw [hx]; rfl)
        rcases hinv with h1 | h2
        · exact absurd h1 (by simp [Index.new])
        · exact absurd h2 hmem
  case hme =>
    show List.foldl meStepRem
      (List.foldl marksStepIns (Index.new.mark_begin, Index.new.mark_end) S).2
        S.reverse = Index.new.mark_end
    rw [meFoldRem_eq]
    show _ = ([] : List OpId)
    rw [List.filter_eq_nil_iff]
    intro x hx
    have hinv := (marksFoldIns_inv S (Index.new.mark_begin, Index.new.mark_end)).2 x hx
    rcases hinv with h1 | h2
    · exact absurd h1 (by simp [Index.new])
    · have hrev : x ∈ endIds S.reverse := by
        simp only [endIds, List.mem_map, List.mem_filter, List.mem_reverse] at h2 ⊢
        exact h2
      simp [hrev]

/-- C1 counterexample: one op with `insert == false` (and invisible, so
removal cannot panic). The insert/remove round trip leaves
`never_seen_puts == false`, so the result is NOT equal to
`Index::new()`, whose flag is `true`. -/
theorem index_insert_remove_inverse_cex :
    (removeAll (insertAll Index.new [⟨⟨0, 1⟩, false, .Delete, .Seq 0 1, false, 0⟩])
        [⟨⟨0, 1⟩, false, .Delete, .Seq 0 1, false, 0⟩].reverse).map
      (fun i => i.never_seen_puts) = some false ∧
    Index.new.never_seen_puts = true := by
  constructor <;> rfl

theorem visStepIns_apply (vw : (KeyRef → Option Nat) × Nat) (op : OpQ) (k : KeyRef) :
    (visStepIns vw op).1 k =
      if op.visible = true ∧ k = op.key then
        match vw.1 op.key with
        | some n => some (n + 1)
        | none => some 1
      else vw.1 k := by
  by_cases hv : op.visible = true
  · cases hkey : vw.1 op.key <;> by_cases he : k = op.key <;>
      simp [visStepIns, hv, hkey, he]
  · simp [visStepIns, hv]

theorem visStepIns_apply2 (v : KeyRef → Option Nat) (w : Nat) (op : OpQ) (k : KeyRef) :
    (visStepIns (v, w) op).1 k =
      if op.visible = true ∧ k = op.key then
        match v op.key with
        | some n => some (n + 1)
        | none => some 1
      else v k :=
  visStepIns_apply (v, w) op k

theorem visStepIns_width (vw : (KeyRef → Option Nat) × Nat) (op : OpQ) :
    (visStepIns vw op).2 =
      if op.visible = true ∧ vw.1 op.key = none then vw.2 + op.width
      else vw.2 := by
  by_cases hv : op.visible = true
  · cases hkey : vw.1 op.key <;> simp [visStepIns, hv, hkey]
  · simp [visStepIns, hv]

theorem visStepIns_width2 (v : KeyRef → Option Nat) (w : Nat) (op : OpQ) :
    (visStepIns (v, w) op).2 =
      if op.visible = true ∧ v op.key = none then w + op.width else w :=
  visStepIns_width (v, w) op

theorem merge_new_right (i : Index) : i.merge Index.new = i := by
  refine Index.ext ?_ ?_ ?_ ?_ ?_ ?_
  · funext k
    show (match i.visible k, Index.new.visible k with
      | some a, some b => some (a + b)
      | some a, none => some a
      | none, some b => some b
      | none, none => none) = i.visible k
    cases i.visible k <;> rfl
  · show TextWidth.mk (i.visible_text.width + Index.new.visible_text.width)
      = i.visible_text
    rw [show Index.new.visible_text.width = 0 from rfl, Nat.add_zero]
  · funext x
    show (i.ops x || Index.new.ops x) = i.ops x
    simp [Index.new]
  · show (i.never_seen_puts && Index.new.never_seen_puts) = i.never_seen_puts
    simp [Index.new]
  · funext x
    show (match Index.new.mark_begin x with
      | some d => some d
      | none => i.mark_begin x) = i.mark_begin x
    rfl
  · show i.mark_end ++ Index.new.mark_end = i.mark_end
    simp [Index.new]

/-- Pushing a single insert through a merge: inserting into a merged
index agrees with merging after inserting into the right component,
provided the left component has no visible entry at the op's key and,
for a `MarkEnd`, no pending `MarkBegin` at the predecessor id. -/
theorem insert_merge (i j : Index) (b : OpQ)
    (hv : b.visible = true → i.visible b.key = none)
    (hm : isEndOp b = true → i.mark_begin b.id.prev = none) :
    (i.merge j).insert b = i.merge (j.insert b) := by
  rw [insert_char (i.merge j) b, insert_char j b]
  have hmw : (i.merge j).visible_text.width
      = i.visible_text.width + j.visible_text.width := rfl
  have hmv : ∀ k, (i.merge j).visible k =
      match i.visible k, j.visible k with
      | some a, some b => some (a + b)
      | some a, none => some a
      | none, some b => some b
      | none, none => none := fun _ => rfl
  refine Index.ext ?_ ?_ ?_ ?_ ?_ ?_
  · funext k
    show (visStepIns ((i.merge j).visible, (i.merge j).visible_text.width) b).1 k =
      match i.visible k, (visStepIns (j.visible, j.visible_text.width) b).1 k with
      | some a, some b => some (a + b)
      | some a, none => some a
      | none, some b => some b
      | none, none => none
    rw [show ((i.merge j).visible, (i.merge j).visible_text.width)
        = ((i.merge j).visible, (i.merge j).visible_text.width) from rfl,
      visStepIns_apply2, visStepIns_apply2]
    by_cases hbv : b.visible = true
    · have hik := hv hbv
      by_cases hk : k = b.key
      · subst hk
        rw [if_pos ⟨hbv, rfl⟩, if_pos ⟨hbv, rfl⟩, hmv b.key, hik]
        cases hj : j.visible b.key <;> simp [hj, hik]
      · rw [if_neg (fun h => hk h.2), if_neg (fun h => hk h.2)]
        exact hmv k
    · rw [if_neg (fun h => hbv h.1), if_neg (fun h => hbv h.1)]
      exact hmv k
  · show TextWidth.mk (visStepIns ((i.merge j).visible, (i.merge j).visible_text.width) b).2
      = TextWidth.mk (i.visible_text.width +
          (visStepIns (j.visible, j.visible_text.width) b).2)
    rw [visStepIns_width2, visStepIns_width2]
    by_cases hbv : b.visible = true
    · have hik := hv hbv
      have hmk : (i.merge j).visible b.key = j.visible b.key := by
        rw [hmv b.key, hik]
        cases j.visible b.key <;> rfl
      cases hjk : j.visible b.key with
      | some n =>
        rw [if_neg (fun h => by rw [hmk, hjk] at h; exact Option.noConfusion h.2),
          if_neg (fun h => Option.noConfusion h.2), hmw]
      | none =>
        rw [if_pos ⟨hbv, by rw [hmk, hjk]⟩, if_pos ⟨hbv, rfl⟩, hmw]
        show TextWidth.mk (i.visible_text.width + j.visible_text.width + b.width) = _
        rw [Nat.add_assoc]
    · rw [if_neg (fun h => hbv h.1), if_neg (fun h => hbv h.1), hmw]
  · funext x
    show opsStepIns (i.merge j).ops b x = (i.ops x || opsStepIns j.ops b x)
    by_cases hx : x = b.id
    · simp [opsStepIns, hx]
    · simp [opsStepIns, hx]
      rfl
  · show ((i.merge j).never_seen_puts && b.insert)
      = (i.never_seen_puts && (j.never_seen_puts && b.insert))
    show ((i.never_seen_puts && j.never_seen_puts) && b.insert) = _
    rw [Bool.and_assoc]
  · funext x
    show (marksStepIns ((i.merge j).mark_begin, (i.merge j).mark_end) b).1 x =
      match (marksStepIns (j.mark_begin, j.mark_end) b).1 x with
      | some d => some d
      | none => i.mark_begin x
    cases hb : b.action with
    | MarkBegin e d =>
      simp only [marksStepIns, hb]
      by_cases hx : x = b.id
      · simp [hx]
      · simp only [if_neg hx]
        rfl
    | MarkEnd e =>
      have him : i.mark_begin b.id.prev = none := hm (by simp [isEndOp, hb])
      have hmrg : (i.merge j).mark_begin b.id.prev = j.mark_begin b.id.prev := by
        show (match j.mark_begin b.id.prev with
          | some d => some d
          | none => i.mark_begin b.id.prev) = _
        rw [him]
        cases j.mark_begin b.id.prev <;> rfl
      simp only [marksStepIns, hb]
      cases hjp : j.mark_begin b.id.prev with
      | some d =>
        rw [hmrg, hjp]
        simp only
        by_cases hx : x = b.id.prev
        · subst hx
          simp [him]
        · simp only [if_neg hx]
          rfl
      | none =>
        rw [hmrg, hjp]
        rfl
    | Make t =>
      simp only [marksStepIns, hb]
      rfl
    | Delete =>
      simp only [marksStepIns, hb]
      rfl
    | Increment n =>
      simp only [marksStepIns, hb]
      rfl
    | Put v =>
      simp only [marksStepIns, hb]
      rfl
  · show (marksStepIns ((i.merge j).mark_begin, (i.merge j).mark_end) b).2 =
      i.mark_end ++ (marksStepIns (j.mark_begin, j.mark_end) b).2
    cases hb : b.action with
    | MarkBegin e d =>
      simp only [marksStepIns, hb]
      rfl
    | MarkEnd e =>
      have him : i.mark_begin b.id.prev = none := hm (by simp [isEndOp, hb])
      have hmrg : (i.merge j).mark_begin b.id.prev = j.mark_begin b.id.prev := by
        show (match j.mark_begin b.id.prev with
          | some d => some d
          | none => i.mark_begin b.id.prev) = _
        rw [him]
        cases j.mark_begin b.id.prev <;> rfl
      simp only [marksStepIns, hb]
      cases hjp : j.mark_begin b.id.prev with
      | some d =>
        rw [hmrg, hjp]
        rfl
      | none =>
        rw [hmrg, hjp]
        show ((i.merge j).mark_end ++ [b.id]) = i.mark_end ++ (j.mark_end ++ [b.id])
        show (i.mark_end ++ j.mark_end) ++ [b.id] = _
        rw [List.append_assoc]
    | Make t =>
      simp only [marksStepIns, hb]
      rfl
    | Delete =>
      simp only [marksStepIns, hb]
      rfl
    | Increment n =>
      simp only [marksStepIns, hb]
      rfl
    | Put v =>
      simp only [marksStepIns, hb]
      rfl

theorem visFoldIns_dom (S : List OpQ) : ∀ (vw : (KeyRef → Option Nat) × Nat)
    (k : KeyRef), (visFoldIns vw S).1 k ≠ none →
    vw.1 k ≠ none ∨ k ∈ S.map OpQ.key := by
  induction S with
  | nil => intro vw k h; exact Or.inl h
  | cons op S' ih =>
    intro vw k h
    rcases ih (visStepIns vw op) k h with h1 | h2
    · rw [visStepIns_apply] at h1
      by_cases hc : op.visible = true ∧ k = op.key
      · right
        rw [List.map_cons]
        exact List.mem_cons.mpr (Or.inl hc.2)
      · rw [if_neg hc] at h1
        exact Or.inl h1
    · right
      rw [List.map_cons]
      exact List.mem_cons.mpr (Or.inr h2)

/-- Inserting a batch of ops agrees with merging a separately built
index, when no op of the batch has a key visible in `i` and no `MarkEnd`
of the batch can pair with a pending `MarkBegin` of `i`. -/
theorem insertAll_merge (i : Index) : ∀ B : List OpQ,
    (∀ b ∈ B, b.visible = true → i.visible b.key = none) →
    (∀ b ∈ B, isEndOp b = true → i.mark_begin b.id.prev = none) →
    insertAll i B = i.merge (insertAll Index.new B) := by
  intro B
  induction B using List.reverseRecOn with
  | nil =>
    intro _ _
    exact (merge_new_right i).symm
  | append_singleton B' b ih =>
    intro hv hm
    have hv' : ∀ x ∈ B', x.visible = true → i.visible x.key = none :=
      fun x hx => hv x (List.mem_append_left _ hx)
    have hm' : ∀ x ∈ B', isEndOp x = true → i.mark_begin x.id.prev = none :=
      fun x hx => hm x (List.mem_append_left _ hx)
    have hbB : b ∈ B' ++ [b] := List.mem_append_right _ (List.mem_singleton_self b)
    have step : insertAll i (B' ++ [b]) = (insertAll i B').insert b := by
      simp [insertAll, List.foldl_append]
    have stepN : insertAll Index.new (B' ++ [b])
        = (insertAll Index.new B').insert b := by
      simp [insertAll, List.foldl_append]
    rw [step, stepN, ih hv' hm',
      insert_merge i (insertAll Index.new B') b (hv b hbB) (hm b hbB)]

/-- C5 (amended): for op lists `A`, `B` with disjoint ids and disjoint
keys, and such that no `MarkEnd` of `B` pairs (via `id.prev()`) with a
`MarkBegin` of `A`, building one index from `A ++ B` equals building the
two indices separately and merging `B`'s into `A`'s. -/
theorem index_merge_disjoint (A B : List OpQ)
    (hids : ∀ a ∈ A, ∀ b ∈ B, a.id ≠ b.id)
    (hkeys : ∀ a ∈ A, ∀ b ∈ B, a.key ≠ b.key)
    (hmarks : ∀ b ∈ B, isEndOp b = true → b.id.prev ∉ beginIds A) :
    insertAll Index.new (A ++ B) =
      (insertAll Index.new A).merge (insertAll Index.new B) := by
  have hAvis : ∀ b ∈ B, b.visible = true →
      (insertAll Index.new A).visible b.key = none := by
    intro b hbB _
    have hproj : (insertAll Index.new A).visible
        = (visFoldIns (Index.new.visible, Index.new.visible_text.width) A).1 := by
      rw [insertAll_char]
    rw [hproj]
    by_contra hne
    rcases visFoldIns_dom A (Index.new.visible, Index.new.visible_text.width)
        b.key hne with h1 | h2
    · exact h1 rfl
    · rcases List.mem_map.mp h2 with ⟨a, haA, hak⟩
      exact hkeys a haA b hbB hak
  have hAmb : ∀ b ∈ B, isEndOp b = true →
      (insertAll Index.new A).mark_begin b.id.prev = none := by
    intro b hbB hbe
    have hproj : (insertAll Index.new A).mark_begin
        = (A.foldl marksStepIns (Index.new.mark_begin, Index.new.mark_end)).1 := by
      rw [insertAll_char]
    rw [hproj]
    cases hx : (A.foldl marksStepIns (Index.new.mark_begin, Index.new.mark_end)).1
        b.id.prev with
    | none => rfl
    | some d =>
      have hinv := (marksFoldIns_inv A (Index.new.mark_begin, Index.new.mark_end)).1
        b.id.prev (by rw [hx]; rfl)
      rcases hinv with h1 | h2
      · simp [Index.new] at h1
      · exact absurd h2 (hmarks b hbB hbe)
  have hsplit : insertAll Index.new (A ++ B) = insertAll (insertAll Index.new A) B := by
    simp [insertAll, List.foldl_append]
  rw [hsplit, insertAll_merge (insertAll Index.new A) B hAvis hAmb]

/-- Witness for C5 at concrete disjoint op lists. -/
theorem index_merge_disjoint_witness :
    insertAll Index.new
        ([⟨⟨0, 1⟩, true, .Delete, .Seq 0 1, true, 1⟩] ++
         [⟨⟨1, 1⟩, true, .Delete, .Seq 1 1, true, 2⟩]) =
      (insertAll Index.new [⟨⟨0, 1⟩, true, .Delete, .Seq 0 1, true, 1⟩]).merge
        (insertAll Index.new [⟨⟨1, 1⟩, true, .Delete, .Seq 1 1, true, 2⟩]) :=
  index_merge_disjoint
    [⟨⟨0, 1⟩, true, .Delete, .Seq 0 1, true, 1⟩]
    [⟨⟨1, 1⟩, true, .Delete, .Seq 1 1, true, 2⟩]
    (by decide) (by decide) (by decide)

/-- C5 counterexample: `A` holds `MarkBegin` with id `(0,7)`, `B` holds
`MarkEnd` with id `(0,8)`; ids and keys are disjoint, yet building from
`A ++ B` pairs the two marks (`mark_begin` ends empty) while merging the
separately built indices does not (`mark_begin` still holds `(0,7)`), so
the combined index differs from the merge. -/
theorem index_merge_disjoint_cex :
    ([⟨⟨0, 7⟩, true, .MarkBegin false ⟨[97], .Null⟩, .Seq 0 1, false, 0⟩] :
        List OpQ).all
      (fun a =>
        ([⟨⟨0, 8⟩, true, .MarkEnd false, .Seq 0 2, false, 0⟩] : List OpQ).all
          (fun b => decide (a.id ≠ b.id) && decide (a.key ≠ b.key))) = true ∧
    (insertAll Index.new
        ([⟨⟨0, 7⟩, true, .MarkBegin false ⟨[97], .Null⟩, .Seq 0 1, false, 0⟩] ++
         [⟨⟨0, 8⟩, true, .MarkEnd false, .Seq 0 2, false, 0⟩])).mark_begin
      ⟨0, 7⟩ = none ∧
    ((insertAll Index.new
        [⟨⟨0, 7⟩, true, .MarkBegin false ⟨[97], .Null⟩, .Seq 0 1, false, 0⟩]).merge
      (insertAll Index.new
        [⟨⟨0, 8⟩, true, .MarkEnd false, .Seq 0 2, false, 0⟩])).mark_begin
      ⟨0, 7⟩ = some ⟨[97], .Null⟩ := by
  refine ⟨by decide, ?_, ?_⟩ <;> rfl

/-! ### Sequences of index operations

`Index` values are only ever produced from `Index::new()` by `insert`,
`remove`, `change_vis` and `merge` (of another such index); `IdxOps` is
the syntax of such histories, with `mrg` carrying the sub-history of the
merged sibling subtree. -/

inductive IdxOps where
  | nil : IdxOps
  | ins (op : OpQ) (rest : IdxOps)
  | rem (op : OpQ) (rest : IdxOps)
  | chv (old_vis : Bool) (new_vis : Bool) (op : OpQ) (rest : IdxOps)
  | mrg (sub : IdxOps) (rest : IdxOps)
  deriving Repr

/-- Run a history against a starting index; `none` if any step panics. -/
def applySeqFrom : Index → IdxOps → Option Index
  | i, .nil => some i
  | i, .ins op rest => applySeqFrom (i.insert op) rest
  | i, .rem op rest =>
    match i.remove op with
    | some j => applySeqFrom j rest
    | none => none
  | i, .chv o n op rest =>
    match i.change_vis ⟨o, n, op⟩ with
    | some (j, _) => applySeqFrom j rest
    | none => none
  | i, .mrg sub rest =>
    match applySeqFrom Index.new sub with
    | some m => applySeqFrom (i.merge m) rest
    | none => none

/-- Run a history from `Index::new()`. -/
def applySeq (s : IdxOps) : Option Index := applySeqFrom Index.new s

/-- Every op ever inserted by a history, merged subtrees included;
removals do not take ops back out. -/
def insertedOps : IdxOps → List OpQ
  | .nil => []
  | .ins op rest => op :: insertedOps rest
  | .rem _ rest => insertedOps rest
  | .chv _ _ _ rest => insertedOps rest
  | .mrg sub rest => insertedOps sub ++ insertedOps rest

/-- The multiset of ops a history leaves in the subtree: inserts add,
removes erase one matching occurrence, merges bring in the sibling's
contents. -/
def contentsFrom : List OpQ → IdxOps → List OpQ
  | acc, .nil => acc
  | acc, .ins op rest => contentsFrom (acc ++ [op]) rest
  | acc, .rem op rest => contentsFrom (acc.erase op) rest
  | acc, .chv _ _ _ rest => contentsFrom acc rest
  | acc, .mrg sub rest => contentsFrom (acc ++ contentsFrom [] sub) rest

theorem remove_nsp (i j : Index) (op : OpQ) (h : i.remove op = some j) :
    j.never_seen_puts = i.never_seen_puts := by
  rw [remove_char] at h
  rcases Option.map_eq_some'.mp h with ⟨vw, _, hj⟩
  rw [← hj]

/-- The visibility action of `change_vis` on the pair
`(visible, visible_text.width)`; `none` is the panic. -/
def chvVis (vw : (KeyRef → Option Nat) × Nat) (cv : ChangeVisibility) :
    Option ((KeyRef → Option Nat) × Nat) :=
  match cv.old_vis, cv.new_vis with
  | true, false =>
    match vw.1 cv.op.key with
    | some n =>
      if n = 1 then
        some (fun k => if k = cv.op.key then none else vw.1 k, vw.2 - cv.op.width)
      else some (fun k => if k = cv.op.key then some (n - 1) else vw.1 k, vw.2)
    | none => none
  | false, true =>
    match vw.1 cv.op.key with
    | some n =>
      some (fun k => if k = cv.op.key then some (n + 1) else vw.1 k, vw.2)
    | none =>
      some (fun k => if k = cv.op.key then some 1 else vw.1 k, vw.2 + cv.op.width)
  | _, _ => some vw

theorem change_vis_char (i : Index) (cv : ChangeVisibility) :
    i.change_vis cv =
      (chvVis (i.visible, i.visible_text.width) cv).map
        (fun vw => ({ i with visible := vw.1, visible_text := ⟨vw.2⟩ }, cv)) := by
  obtain ⟨o, n, op⟩ := cv
  cases o <;> cases n <;>
    simp only [Index.change_vis, chvVis] <;>
    (try cases hk : i.visible op.key) <;>
    (try split) <;>
    (try split) <;>
    simp_all [TextWidth.remove_op, TextWidth.add_op]

theorem change_vis_nsp (i j : Index) (cv cv' : ChangeVisibility)
    (h : i.change_vis cv = some (j, cv')) :
    j.never_seen_puts = i.never_seen_puts := by
  rw [change_vis_char] at h
  rcases Option.map_eq_some'.mp h with ⟨vw, _, hj⟩
  have := congrArg Prod.fst hj
  simp only at this
  rw [← this]

/-- C7 (amended): `never_seen_puts` is true iff every op EVER inserted
into the index — directly or through a merged subtree — had
`insert == true`; removals do not restore the flag. -/
theorem never_seen_puts_iff (s : IdxOps) : ∀ (i j : Index),
    applySeqFrom i s = some j →
    (j.never_seen_puts = true ↔
      (i.never_seen_puts = true ∧ ∀ op ∈ insertedOps s, op.insert = true)) := by
  induction s with
  | nil =>
    intro i j h
    injection h with h'
    subst h'
    simp [insertedOps]
  | ins op rest ih =>
    intro i j h
    have hstep := ih (i.insert op) j h
    have hins : (i.insert op).never_seen_puts = (i.never_seen_puts && op.insert) := by
      rw [insert_char]
    rw [hstep, hins]
    simp only [insertedOps, List.mem_cons, Bool.and_eq_true]
    constructor
    · rintro ⟨⟨h1, h2⟩, h3⟩
      exact ⟨h1, fun x hx => hx.elim (fun he => he ▸ h2) (h3 x)⟩
    · rintro ⟨h1, h2⟩
      exact ⟨⟨h1, h2 op (Or.inl rfl)⟩, fun x hx => h2 x (Or.inr hx)⟩
  | rem op rest ih =>
    intro i j h
    cases hr : i.remove op with
    | none => simp [applySeqFrom, hr] at h
    | some j' =>
      simp only [applySeqFrom, hr] at h
      rw [ih j' j h, remove_nsp i j' op hr]
      simp [insertedOps]
  | chv o n op rest ih =>
    intro i j h
    cases hc : i.change_vis ⟨o, n, op⟩ with
    | none => simp [applySeqFrom, hc] at h
    | some p =>
      obtain ⟨j', cv'⟩ := p
      simp only [applySeqFrom, hc] at h
      rw [ih j' j h, change_vis_nsp i j' ⟨o, n, op⟩ cv' hc]
      simp [insertedOps]
  | mrg sub rest ihsub ihrest =>
    intro i j h
    cases hm : applySeqFrom Index.new sub with
    | none => simp [applySeqFrom, hm] at h
    | some m =>
      simp only [applySeqFrom, hm] at h
      have h1 := ihrest (i.merge m) j h
      have h2 := ihsub Index.new m hm
      have hmrg : (i.merge m).never_seen_puts
          = (i.never_seen_puts && m.never_seen_puts) := rfl
      simp only [Index.new] at h2
      rw [h1, hmrg]
      simp only [insertedOps, List.mem_append, Bool.and_eq_true]
      constructor
      · rintro ⟨⟨hi, hmn⟩, hrest⟩
        have hsubops := (h2.mp hmn).2
        exact ⟨hi, fun x hx => hx.elim (hsubops x) (hrest x)⟩
      · rintro ⟨hi, hall⟩
        refine ⟨⟨hi, h2.mpr ⟨trivial, fun x hx => hall x (Or.inl hx)⟩⟩,
          fun x hx => hall x (Or.inr hx)⟩

/-- Witness for C7 (amended) at a one-insert history. -/
theorem never_seen_puts_iff_witness :
    applySeqFrom Index.new (.ins opW .nil) = some (Index.new.insert opW) ∧
    ((Index.new.insert opW).never_seen_puts = true ↔
      (Index.new.never_seen_puts = true ∧
        ∀ op ∈ insertedOps (.ins opW .nil), op.insert = true)) :=
  ⟨rfl, never_seen_puts_iff (.ins opW .nil) Index.new (Index.new.insert opW) rfl⟩

/-- C7 counterexample: insert an op with `insert == false` and then
remove it. The subtree contents are empty (so "every op in the subtree
has `insert == true`" holds vacuously), yet `never_seen_puts` is
`false`: the flag tracks history, not current contents. -/
theorem never_seen_puts_cex :
    (applySeq (.ins ⟨⟨0, 1⟩, false, .Delete, .Seq 0 1, false, 0⟩
        (.rem ⟨⟨0, 1⟩, false, .Delete, .Seq 0 1, false, 0⟩ .nil))).map
      (fun i => i.never_seen_puts) = some false ∧
    contentsFrom [] (.ins ⟨⟨0, 1⟩, false, .Delete, .Seq 0 1, false, 0⟩
        (.rem ⟨⟨0, 1⟩, false, .Delete, .Seq 0 1, false, 0⟩ .nil)) = [] := by
  constructor <;> rfl

/-- The net number of visible ops a history contributes for each key:
`insert` of a visible op adds one, `remove` of a visible op takes one,
`change_vis` toggles add or take one, merged subtrees contribute their
own net count. -/
def visDelta : IdxOps → KeyRef → Int
  | .nil, _ => 0
  | .ins op rest, k =>
    (if op.visible = true ∧ k = op.key then 1 else 0) + visDelta rest k
  | .rem op rest, k =>
    (if op.visible = true ∧ k = op.key then -1 else 0) + visDelta rest k
  | .chv o n op rest, k =>
    (if o = false ∧ n = true ∧ k = op.key then 1 else 0) +
      (if o = true ∧ n = false ∧ k = op.key then -1 else 0) + visDelta rest k
  | .mrg sub rest, k => visDelta sub k + visDelta rest k

/-- The `visible` map stores exactly the positive net counts: nothing at
count 0, and never a stored 0. -/
def VisInvF (v : KeyRef → Option Nat) (f : KeyRef → Int) : Prop :=
  ∀ k, 0 ≤ f k ∧ v k = (if f k = 0 then none else some (f k).toNat)

theorem VisInvF_congr (v1 v2 : KeyRef → Option Nat) (f1 f2 : KeyRef → Int)
    (hv : ∀ k, v1 k = v2 k) (hf : ∀ k, f1 k = f2 k) (h : VisInvF v1 f1) :
    VisInvF v2 f2 := by
  intro k
  obtain ⟨hp, he⟩ := h k
  rw [← hv k, ← hf k]
  exact ⟨hp, he⟩

theorem VisInvF_inc (v : KeyRef → Option Nat) (f : KeyRef → Int) (key : KeyRef)
    (h : VisInvF v f) :
    VisInvF
      (fun k => if k = key then
          (match v key with
           | some n => some (n + 1)
           | none => some 1)
        else v k)
      (fun k => f k + (if k = key then 1 else 0)) := by
  intro k
  dsimp only
  obtain ⟨hpos, heq⟩ := h k
  by_cases hk : k = key
  · subst hk
    refine ⟨by omega, ?_⟩
    rw [if_pos rfl, if_pos rfl, heq]
    by_cases hz : f k = 0
    · rw [if_pos hz, if_neg (show ¬ (f k + 1 = 0) by omega)]
      show some 1 = some ((f k + 1).toNat)
      congr 1
      omega
    · rw [if_neg hz, if_neg (show ¬ (f k + 1 = 0) by omega)]
      show some ((f k).toNat + 1) = some ((f k + 1).toNat)
      congr 1
      omega
  · refine ⟨by omega, ?_⟩
    rw [if_neg hk, if_neg hk, Int.add_zero]
    exact heq

theorem VisInvF_dec (v : KeyRef → Option Nat) (f : KeyRef → Int) (key : KeyRef)
    (n : Nat) (h : VisInvF v f) (hv : v key = some n) :
    VisInvF
      (fun k => if k = key then (if n = 1 then none else some (n - 1)) else v k)
      (fun k => f k + (if k = key then -1 else 0)) := by
  have hkey := h key
  have hfk1 : 1 ≤ f key ∧ n = (f key).toNat := by
    obtain ⟨hp, he⟩ := hkey
    rw [hv] at he
    by_cases hz : f key = 0
    · rw [if_pos hz] at he
      exact Option.noConfusion he
    · rw [if_neg hz] at he
      injection he with he'
      exact ⟨by omega, he'⟩
  intro k
  dsimp only
  obtain ⟨hpos, heq⟩ := h k
  by_cases hk : k = key
  · rw [if_pos hk, if_pos hk, hk]
    obtain ⟨hge, hn⟩ := hfk1
    refine ⟨by omega, ?_⟩
    by_cases h1 : n = 1
    · rw [if_pos h1, if_pos (show f key + -1 = 0 by omega)]
    · rw [if_neg h1, if_neg (show ¬ (f key + -1 = 0) by omega)]
      show some (n - 1) = some ((f key + -1).toNat)
      congr 1
      omega
  · simp only [if_neg hk, Int.add_zero]
    exact ⟨hpos, heq⟩

theorem VisInvF_visStepIns (v : KeyRef → Option Nat) (w : Nat) (f : KeyRef → Int)
    (op : OpQ) (h : VisInvF v f) :
    VisInvF (visStepIns (v, w) op).1
      (fun k => f k + (if op.visible = true ∧ k = op.key then 1 else 0)) := by
  by_cases hvis : op.visible = true
  · refine VisInvF_congr _ _ _ _ ?_ ?_ (VisInvF_inc v f op.key h)
    · intro k
      rw [visStepIns_apply2]
      by_cases hk : k = op.key
      · rw [if_pos hk, if_pos ⟨hvis, hk⟩]
      · rw [if_neg hk, if_neg (fun hc => hk hc.2)]
    · intro k
      by_cases hk : k = op.key
      · rw [if_pos hk, if_pos ⟨hvis, hk⟩]
      · rw [if_neg hk, if_neg (fun hc => hk hc.2)]
  · refine VisInvF_congr v _ f _ ?_ ?_ h
    · intro k
      rw [visStepIns_apply2, if_neg (fun hc => hvis hc.1)]
    · intro k
      rw [if_neg (fun hc => hvis hc.1), Int.add_zero]

theorem VisInvF_visStepRem (v : KeyRef → Option Nat) (w : Nat) (f : KeyRef → Int)
    (op : OpQ) (vw' : (KeyRef → Option Nat) × Nat) (h : VisInvF v f)
    (hs : visStepRem (v, w) op = some vw') :
    VisInvF vw'.1
      (fun k => f k + (if op.visible = true ∧ k = op.key then -1 else 0)) := by
  by_cases hvis : op.visible = true
  · cases hk : v op.key with
    | none =>
      rw [visStepRem_vis_none (v, w) op hvis hk] at hs
      exact Option.noConfusion hs
    | some n =>
      rw [visStepRem_vis_some (v, w) op n hvis hk] at hs
      by_cases h1 : n = 1
      · rw [if_pos h1] at hs
        injection hs with hs'
        refine VisInvF_congr _ _ _ _ ?_ ?_ (VisInvF_dec v f op.key n h hk)
        · intro k
          rw [← hs']
          by_cases hkk : k = op.key
          · rw [if_pos hkk, if_pos h1]
            simp [hkk]
          · rw [if_neg hkk]
            simp [hkk]
        · intro k
          by_cases hkk : k = op.key
          · rw [if_pos hkk, if_pos ⟨hvis, hkk⟩]
          · rw [if_neg hkk, if_neg (fun hc => hkk hc.2)]
      · rw [if_neg h1] at hs
        injection hs with hs'
        refine VisInvF_congr _ _ _ _ ?_ ?_ (VisInvF_dec v f op.key n h hk)
        · intro k
          rw [← hs']
          by_cases hkk : k = op.key
          · rw [if_pos hkk, if_neg h1]
            simp [hkk]
          · rw [if_neg hkk]
            simp [hkk]
        · intro k
          by_cases hkk : k = op.key
          · rw [if_pos hkk, if_pos ⟨hvis, hkk⟩]
          · rw [if_neg hkk, if_neg (fun hc => hkk hc.2)]
  · have hvis' : op.visible = false := by
      cases hb : op.visible
      · rfl
      · exact absurd hb hvis
    rw [visStepRem_invis (v, w) op hvis'] at hs
    injection hs with hs'
    refine VisInvF_congr v _ f _ ?_ ?_ h
    · intro k
      rw [← hs']
    · intro k
      rw [if_neg (fun hc => hvis hc.1), Int.add_zero]

theorem VisInvF_merge (v1 v2 : KeyRef → Option Nat) (f g : KeyRef → Int)
    (h1 : VisInvF v1 f) (h2 : VisInvF v2 g) :
    VisInvF
      (fun k =>
        match v1 k, v2 k with
        | some a, some b => some (a + b)
        | some a, none => some a
        | none, some b => some b
        | none, none => none)
      (fun k => f k + g k) := by
  intro k
  dsimp only
  obtain ⟨hf, hef⟩ := h1 k
  obtain ⟨hg, heg⟩ := h2 k
  refine ⟨by omega, ?_⟩
  rw [hef, heg]
  by_cases hfz : f k = 0 <;> by_cases hgz : g k = 0
  · rw [if_pos hfz, if_pos hgz, if_pos (show f k + g k = 0 by omega)]
  · rw [if_pos hfz, if_neg hgz, if_neg (show ¬ (f k + g k = 0) by omega)]
    show some ((g k).toNat) = some ((f k + g k).toNat)
    congr 1
    omega
  · rw [if_neg hfz, if_pos hgz, if_neg (show ¬ (f k + g k = 0) by omega)]
    show some ((f k).toNat) = some ((f k + g k).toNat)
    congr 1
    omega
  · rw [if_neg hfz, if_neg hgz, if_neg (show ¬ (f k + g k = 0) by omega)]
    show some ((f k).toNat + (g k).toNat) = some ((f k + g k).toNat)
    congr 1
    omega

theorem VisInvF_chvVis (v : KeyRef → Option Nat) (w : Nat) (f : KeyRef → Int)
    (o n : Bool) (op : OpQ) (vw' : (KeyRef → Option Nat) × Nat) (h : VisInvF v f)
    (hs : chvVis (v, w) ⟨o, n, op⟩ = some vw') :
    VisInvF vw'.1
      (fun k => f k +
        ((if o = false ∧ n = true ∧ k = op.key then 1 else 0) +
         (if o = true ∧ n = false ∧ k = op.key then -1 else 0))) := by
  cases o <;> cases n
  · simp only [chvVis] at hs
    injection hs with hs'
    refine VisInvF_congr v _ f _ ?_ ?_ h
    · intro k
      rw [← hs']
    · intro k
      simp
  · cases hk : v op.key with
    | some m =>
      simp only [chvVis, hk] at hs
      injection hs with hs'
      refine VisInvF_congr _ _ _ _ ?_ ?_ (VisInvF_inc v f op.key h)
      · intro k
        rw [← hs']
        dsimp only
        by_cases hkk : k = op.key
        · rw [if_pos hkk, if_pos hkk, hk]
        · rw [if_neg hkk, if_neg hkk]
      · intro k
        by_cases hkk : k = op.key <;> simp [hkk]
    | none =>
      simp only [chvVis, hk] at hs
      injection hs with hs'
      refine VisInvF_congr _ _ _ _ ?_ ?_ (VisInvF_inc v f op.key h)
      · intro k
        rw [← hs']
        dsimp only
        by_cases hkk : k = op.key
        · rw [if_pos hkk, if_pos hkk, hk]
        · rw [if_neg hkk, if_neg hkk]
      · intro k
        by_cases hkk : k = op.key <;> simp [hkk]
  · cases hk : v op.key with
    | some m =>
      by_cases h1 : m = 1
      · simp only [chvVis, hk, if_pos h1] at hs
        injection hs with hs'
        refine VisInvF_congr _ _ _ _ ?_ ?_ (VisInvF_dec v f op.key m h hk)
        · intro k
          rw [← hs']
          dsimp only
          by_cases hkk : k = op.key
          · rw [if_pos hkk, if_pos hkk, if_pos h1]
          · rw [if_neg hkk, if_neg hkk]
        · intro k
          by_cases hkk : k = op.key <;> simp [hkk]
      · simp only [chvVis, hk, if_neg h1] at hs
        injection hs with hs'
        refine VisInvF_congr _ _ _ _ ?_ ?_ (VisInvF_dec v f op.key m h hk)
        · intro k
          rw [← hs']
          dsimp only
          by_cases hkk : k = op.key
          · rw [if_pos hkk, if_pos hkk, if_neg h1]
          · rw [if_neg hkk, if_neg hkk]
        · intro k
          by_cases hkk : k = op.key <;> simp [hkk]
    | none =>
      simp only [chvVis, hk] at hs
      exact Option.noConfusion hs
  · simp only [chvVis] at hs
    injection hs with hs'
    refine VisInvF_congr v _ f _ ?_ ?_ h
    · intro k
      rw [← hs']
    · intro k
      simp

theorem visInv_main (s : IdxOps) : ∀ (i : Index) (f : KeyRef → Int) (j : Index),
    VisInvF i.visible f → applySeqFrom i s = some j →
    VisInvF j.visible (fun k => f k + visDelta s k) := by
  induction s with
  | nil =>
    intro i f j hI h
    injection h with h'
    subst h'
    refine VisInvF_congr _ _ _ _ (fun k => rfl) ?_ hI
    intro k
    simp [visDelta]
  | ins op rest ih =>
    intro i f j hI h
    have h' : applySeqFrom (i.insert op) rest = some j := h
    have hstep : VisInvF (i.insert op).visible
        (fun k => f k + (if op.visible = true ∧ k = op.key then 1 else 0)) := by
      rw [insert_char]
      exact VisInvF_visStepIns i.visible i.visible_text.width f op hI
    refine VisInvF_congr _ _ _ _ (fun k => rfl) ?_ (ih (i.insert op) _ j hstep h')
    intro k
    dsimp only
    simp only [visDelta]
    omega
  | rem op rest ih =>
    intro i f j hI h
    cases hr : i.remove op with
    | none => simp [applySeqFrom, hr] at h
    | some j' =>
      have h' : applySeqFrom j' rest = some j := by
        simpa only [applySeqFrom, hr] using h
      rw [remove_char] at hr
      rcases Option.map_eq_some'.mp hr with ⟨vw, hvw, hj'⟩
      have hstep : VisInvF j'.visible
          (fun k => f k + (if op.visible = true ∧ k = op.key then -1 else 0)) := by
        rw [← hj']
        exact VisInvF_visStepRem i.visible i.visible_text.width f op vw hI hvw
      refine VisInvF_congr _ _ _ _ (fun k => rfl) ?_ (ih j' _ j hstep h')
      intro k
      dsimp only
      simp only [visDelta]
      omega
  | chv o n op rest ih =>
    intro i f j hI h
    cases hc : i.change_vis ⟨o, n, op⟩ with
    | none => simp [applySeqFrom, hc] at h
    | some p =>
      obtain ⟨j', cv'⟩ := p
      have h' : applySeqFrom j' rest = some j := by
        simpa only [applySeqFrom, hc] using h
      rw [change_vis_char] at hc
      rcases Option.map_eq_some'.mp hc with ⟨vw, hvw, hj'⟩
      have hj'v : j'.visible = vw.1 := by
        have := congrArg Prod.fst hj'
        simp only at this
        rw [← this]
      have hstep : VisInvF j'.visible
          (fun k => f k +
            ((if o = false ∧ n = true ∧ k = op.key then 1 else 0) +
             (if o = true ∧ n = false ∧ k = op.key then -1 else 0))) := by
        rw [hj'v]
        exact VisInvF_chvVis i.visible i.visible_text.width f o n op vw hI hvw
      refine VisInvF_congr _ _ _ _ (fun k => rfl) ?_ (ih j' _ j hstep h')
      intro k
      dsimp only
      simp only [visDelta]
      omega
  | mrg sub rest ihsub ihrest =>
    intro i f j hI h
    cases hm : applySeqFrom Index.new sub with
    | none => simp [applySeqFrom, hm] at h
    | some m =>
      have h' : applySeqFrom (i.merge m) rest = some j := by
        simpa only [applySeqFrom, hm] using h
      have hnew : VisInvF Index.new.visible (fun _ => (0 : Int)) := by
        intro k
        exact ⟨le_refl 0, by simp [Index.new]⟩
      have hsub := ihsub Index.new (fun _ => (0 : Int)) m hnew hm
      have hmerge : VisInvF (i.merge m).visible
          (fun k => f k + (0 + visDelta sub k)) :=
        VisInvF_merge i.visible m.visible f _ hI hsub
      refine VisInvF_congr _ _ _ _ (fun k => rfl) ?_ (ihrest (i.merge m) _ j hmerge h')
      intro k
      dsimp only
      simp only [visDelta]
      omega

/-- C10: in every `Index` reachable from `Index::new()` by a history of
`insert`, `remove`, `change_vis` and `merge` calls that never panics
(success of the run is exactly the proviso that removals and
decrements hit keys currently present), the `visible` map stores only
counts ≥ 1, it stores no entry exactly when the net visible-op count of
the history for that key is zero, and `has_visible(key)` holds exactly
when the subtree has at least one visible op for `key` (net count ≥ 1). -/
theorem visible_counts (s : IdxOps) (j : Index) (h : applySeq s = some j) :
    (∀ k n, j.visible k = some n → 1 ≤ n) ∧
    (∀ k, j.visible k = none ↔ visDelta s k = 0) ∧
    (∀ k, j.has_visible k = true ↔ 1 ≤ visDelta s k) := by
  have hnew : VisInvF Index.new.visible (fun _ => (0 : Int)) := by
    intro k
    exact ⟨le_refl 0, by simp [Index.new]⟩
  have hinv := visInv_main s Index.new (fun _ => (0 : Int)) j hnew h
  refine ⟨?_, ?_, ?_⟩
  · intro k n hk
    obtain ⟨hpos, heq⟩ := hinv k
    simp only [Int.zero_add] at hpos heq
    rw [hk] at heq
    by_cases hz : visDelta s k = 0
    · rw [if_pos hz] at heq
      exact Option.noConfusion heq
    · rw [if_neg hz] at heq
      injection heq with heq'
      omega
  · intro k
    obtain ⟨hpos, heq⟩ := hinv k
    simp only [Int.zero_add] at hpos heq
    constructor
    · intro hk
      rw [hk] at heq
      by_cases hz : visDelta s k = 0
      · exact hz
      · rw [if_neg hz] at heq
        exact Option.noConfusion heq
    · intro hz
      rw [heq, if_pos hz]
  · intro k
    obtain ⟨hpos, heq⟩ := hinv k
    simp only [Int.zero_add] at hpos heq
    rw [Index.has_visible, heq]
    by_cases hz : visDelta s k = 0
    · rw [if_pos hz]
      simp only [Option.isSome_none]
      constructor
      · intro hfalse
        exact Bool.noConfusion hfalse
      · intro h1
        omega
    · rw [if_neg hz]
      simp only [Option.isSome_some]
      constructor
      · intro _
        omega
      · intro _
        trivial

/-- Witness for C10 at the one-insert history of a visible op. -/
theorem visible_counts_witness :
    applySeq (.ins opW .nil) = some (Index.new.insert opW) ∧
    ((∀ k n, (Index.new.insert opW).visible k = some n → 1 ≤ n) ∧
     (∀ k, (Index.new.insert opW).visible k = none ↔
        visDelta (.ins opW .nil) k = 0) ∧
     (∀ k, (Index.new.insert opW).has_visible k = true ↔
        1 ≤ visDelta (.ins opW .nil) k)) :=
  ⟨rfl, visible_counts (.ins opW .nil) (Index.new.insert opW) rfl⟩

end Automerge
